import Mathlib

/-!
# Shallow embedding of the figma-i18n-mapper text pipeline

This file models the text extraction / filtering / batched key generation
pipeline of the repository (src/lib/utils/openai.ts, token-estimator.ts,
language.ts, the noise filter and the Figma tree extractor) and proves the
specification claims about it.

JavaScript strings are modelled as lists of Unicode scalar values
(`Str := List Char`); where JavaScript's UTF-16 view matters
(`String.prototype.length`), `jsLength` counts astral-plane characters twice,
which reproduces the UTF-16 unit count exactly.
-/

abbrev Str := List Char

/-- UTF-16 length contribution of one Unicode scalar value. -/
def utf16Len (c : Char) : Nat := if c.val.toNat ≥ 0x10000 then 2 else 1

/-- JavaScript `String.prototype.length` (UTF-16 code units). -/
def jsLength (s : Str) : Nat := (s.map utf16Len).sum

/-- The character class removed by JavaScript `String.prototype.trim`
(WhiteSpace ∪ LineTerminator), which coincides with the `\s` regex class. -/
def jsWS (c : Char) : Bool :=
  c = ' ' ∨ c = '\t' ∨ c = '\n' ∨ c.val.toNat = 0x0B ∨ c.val.toNat = 0x0C ∨
  c = '\r' ∨ c.val.toNat = 0xA0 ∨ c.val.toNat = 0x1680 ∨
  (0x2000 ≤ c.val.toNat ∧ c.val.toNat ≤ 0x200A) ∨
  c.val.toNat = 0x2028 ∨ c.val.toNat = 0x2029 ∨ c.val.toNat = 0x202F ∨
  c.val.toNat = 0x205F ∨ c.val.toNat = 0x3000 ∨ c.val.toNat = 0xFEFF

/-- JavaScript `String.prototype.trim`. -/
def jsTrim (s : Str) : Str :=
  ((s.dropWhile jsWS).reverse.dropWhile jsWS).reverse

/-- JavaScript `Array.prototype.flatten(sep)`. -/
def jsJoin (sep : Str) : List Str → Str
  | [] => []
  | [x] => x
  | x :: y :: rest => x ++ sep ++ jsJoin sep (y :: rest)

/-- JavaScript `String.prototype.split(sep)` for a single-character separator. -/
def jsSplit (sep : Char) : Str → List Str
  | [] => [[]]
  | c :: rest =>
    if c = sep then [] :: jsSplit sep rest
    else
      match jsSplit sep rest with
      | s :: ss => (c :: s) :: ss
      | [] => [[c]]

/-- ASCII lower-casing, as used for the (ASCII-only) frame-keyword matching.
JavaScript `toLowerCase` also folds non-ASCII letters; the exclusion keywords
below are pure ASCII, so only ASCII folding is observable for them. -/
def asciiLower (c : Char) : Char :=
  if 'A' ≤ c ∧ c ≤ 'Z' then Char.ofNat (c.val.toNat + 32) else c

/-- JavaScript `String.prototype.includes`. -/
def containsSub (hay needle : Str) : Bool :=
  needle.isPrefixOf hay ||
    match hay with
    | [] => false
    | _ :: t => containsSub t needle

/-- One extracted candidate string (src/lib/types.ts `FigmaTextNode`). -/
structure FigmaTextNode where
  text : Str
  frameName : Str
  framePath : List Str
  nodeId : Str
deriving DecidableEq, Repr

/-! ## Noise filter (src filter module: `shouldExcludeByContent`,
`shouldExcludeByFrameName`, `removeDuplicateTexts`, `filterTextNodes`) -/

def isDigitChar (c : Char) : Bool := '0' ≤ c ∧ c ≤ '9'

/-- `/^.$/` — one UTF-16 unit that is not a line terminator. -/
def patSingleChar (s : Str) : Bool :=
  match s with
  | [c] => jsLength [c] = 1 ∧ c ≠ '\n' ∧ c ≠ '\r' ∧
           c.val.toNat ≠ 0x2028 ∧ c.val.toNat ≠ 0x2029
  | _ => false

/-- `/^[\d\s,\.]+$/` -/
def patNumbersOnly (s : Str) : Bool :=
  s ≠ [] ∧ s.all fun c => isDigitChar c ∨ jsWS c ∨ c = ',' ∨ c = '.'

/-- `/^[→←↑↓✓✗×+\-=<>]+$/` -/
def patIconText (s : Str) : Bool :=
  s ≠ [] ∧ s.all fun c => ("→←↑↓✓✗×+-=<>".toList).contains c

/-- `/^[!@#$%^&*()_+\-=\[\]{};':"\\|,.<>\/?]+$/` -/
def patSpecialCharsOnly (s : Str) : Bool :=
  s ≠ [] ∧ s.all fun c => ("!@#$%^&*()_+-=[]\x7b\x7d;':\"\\|,.<>/?".toList).contains c

/-- `/^[$€¥£₹]+$/` -/
def patCurrencyOnly (s : Str) : Bool :=
  s ≠ [] ∧ s.all fun c => ("$€¥£₹".toList).contains c

/-- `/^[\u{1F300}-\u{1F9FF}]+$/u` -/
def patEmojiOnly (s : Str) : Bool :=
  s ≠ [] ∧ s.all fun c => 0x1F300 ≤ c.val.toNat ∧ c.val.toNat ≤ 0x1F9FF

/-- `/^[\.…]+$/` -/
def patDotsOnly (s : Str) : Bool :=
  s ≠ [] ∧ s.all fun c => c = '.' ∨ c = '…'

/-- `/^(lorem ipsum|placeholder|test|example|xxx|000)/i` (ASCII case folding:
in a non-Unicode regex no non-ASCII character canonicalizes to ASCII). -/
def patPlaceholder (s : Str) : Bool :=
  let low := s.map asciiLower
  ["lorem ipsum".toList, "placeholder".toList, "test".toList,
   "example".toList, "xxx".toList, "000".toList].any
    fun p => p.isPrefixOf low

/-- `/^v?\d+\.\d+(\.\d+)?$/` -/
def patVersion (s : Str) : Bool :=
  let body := match s with
    | 'v' :: rest => rest
    | _ => s
  match jsSplit '.' body with
  | [a, b] => a ≠ [] ∧ b ≠ [] ∧ a.all isDigitChar ∧ b.all isDigitChar
  | [a, b, c] => a ≠ [] ∧ b ≠ [] ∧ c ≠ [] ∧
                 a.all isDigitChar ∧ b.all isDigitChar ∧ c.all isDigitChar
  | _ => false

def COMMON_REPETITIVE_TEXT : List Str :=
  ["•".toList, "/".toList, "|".toList, "-".toList,
   "—".toList, "–".toList, "+".toList, "×".toList]

def shouldExcludeByContent (text : Str) : Bool :=
  let trimmed := jsTrim text
  if jsLength trimmed < 2 then true
  else if patSingleChar trimmed ∨ patNumbersOnly trimmed ∨ patIconText trimmed ∨
          patSpecialCharsOnly trimmed ∨ patCurrencyOnly trimmed ∨
          patEmojiOnly trimmed ∨ patDotsOnly trimmed ∨
          patPlaceholder trimmed ∨ patVersion trimmed then true
  else COMMON_REPETITIVE_TEXT.contains trimmed

def EXCLUDE_FRAME_KEYWORDS : List Str :=
  ["icon".toList, "logo".toList, "badge".toList, "avatar".toList,
   "image".toList, "img".toList, "decoration".toList, "divider".toList,
   "spacer".toList, "line".toList, "dot".toList, "bullet".toList,
   "marker".toList]

def shouldExcludeByFrameName (framePath : List Str) : Bool :=
  let frameNameLower := (jsJoin " ".toList framePath).map asciiLower
  EXCLUDE_FRAME_KEYWORDS.any fun keyword => containsSub frameNameLower keyword

/-- The context key used by context-aware deduplication: the last one or two
path segments joined with " > " (or the sentinel "root" for an empty path),
combined with the text. -/
def contextKey (node : FigmaTextNode) : Str :=
  let pathDepth := node.framePath.length
  let contextPath : Str :=
    if pathDepth ≥ 2 then
      jsJoin " > ".toList (node.framePath.drop (pathDepth - 2))
    else if pathDepth = 1 then node.framePath.headD []
    else "root".toList
  contextPath ++ "::".toList ++ node.text

def dedupSimpleGo (seen : List Str) : List FigmaTextNode → List FigmaTextNode
  | [] => []
  | n :: rest =>
    if seen.contains n.text then dedupSimpleGo seen rest
    else n :: dedupSimpleGo (n.text :: seen) rest

def dedupContextGo (seen : List Str) : List FigmaTextNode → List FigmaTextNode
  | [] => []
  | n :: rest =>
    if seen.contains (contextKey n) then dedupContextGo seen rest
    else n :: dedupContextGo (contextKey n :: seen) rest

def removeDuplicateTexts (nodes : List FigmaTextNode) (contextAware : Bool) :
    List FigmaTextNode :=
  if !contextAware then dedupSimpleGo [] nodes
  else dedupContextGo [] nodes

/-- Filter options (all fields optional in TypeScript; `none` means absent).
Length bounds are modelled as integers so that arbitrary numeric options are
representable. -/
structure FilterOptions where
  minLength : Option Int
  excludeByContent : Option Bool
  excludeByFrameName : Option Bool
  removeDuplicates : Option Bool
  contextAwareDuplicates : Option Bool
  maxLength : Option Int
deriving DecidableEq, Repr

structure ExcludedStats where
  byContent : Nat
  byFrameName : Nat
  byLength : Nat
  duplicates : Nat
deriving DecidableEq, Repr

def filterTextNodes (nodes : List FigmaTextNode) (options : FilterOptions) :
    List FigmaTextNode × ExcludedStats :=
  let minLength := options.minLength.getD 2
  let excludeContent := options.excludeByContent.getD true
  let excludeFrame := options.excludeByFrameName.getD true
  let dedup := options.removeDuplicates.getD true
  let contextAware := options.contextAwareDuplicates.getD true
  let maxLength := options.maxLength.getD 500
  let result0 := nodes
  let result1 :=
    if excludeContent then result0.filter fun n => !shouldExcludeByContent n.text
    else result0
  let byContent := if excludeContent then result0.length - result1.length else 0
  let result2 :=
    if excludeFrame then result1.filter fun n => !shouldExcludeByFrameName n.framePath
    else result1
  let byFrameName := if excludeFrame then result1.length - result2.length else 0
  let result3 := result2.filter fun n =>
    minLength ≤ (jsLength (jsTrim n.text) : Int) ∧
    (jsLength (jsTrim n.text) : Int) ≤ maxLength
  let byLength := result2.length - result3.length
  let result4 := if dedup then removeDuplicateTexts result3 contextAware else result3
  let duplicates := if dedup then result3.length - result4.length else 0
  (result4, ⟨byContent, byFrameName, byLength, duplicates⟩)

/-! ## Token estimators

The repository contains two functions named `estimateTokens`:
`src/lib/utils/token-estimator.ts` uses a uniform 3-characters-per-token
heuristic, while `src/lib/utils/language.ts` weights Japanese-script
characters at 1.5 tokens and all other UTF-16 units at a quarter token. -/

/-- `Math.ceil(text.length / 3)` (token-estimator.ts). -/
def TokenEstimatorTs.estimateTokens (text : Str) : Nat :=
  (jsLength text + 2) / 3

/-- The Japanese character class `/[぀-ゟ゠-ヿ一-龯]/`. -/
def isJapaneseChar (c : Char) : Bool :=
  (0x3040 ≤ c.val.toNat ∧ c.val.toNat ≤ 0x309F) ∨
  (0x30A0 ≤ c.val.toNat ∧ c.val.toNat ≤ 0x30FF) ∨
  (0x4E00 ≤ c.val.toNat ∧ c.val.toNat ≤ 0x9FAF)

/-- Number of Japanese-script characters matched by the global regex. -/
def japaneseCharCount (text : Str) : Nat := text.countP isJapaneseChar

/-- language.ts `estimateTokens`:
`Math.ceil(japaneseChars * 1.5) + Math.ceil(otherChars / 4)` where
`otherChars = text.length - japaneseChars` (UTF-16 length). -/
def LanguageTs.estimateTokens (text : Str) : Nat :=
  let japaneseChars := japaneseCharCount text
  let otherChars := jsLength text - japaneseChars
  let japaneseTokens := (3 * japaneseChars + 1) / 2
  let otherTokens := (otherChars + 3) / 4
  japaneseTokens + otherTokens

/-! ## Document tree extractor (`extractTextNodes`) -/

/-- A node of the Figma document tree. -/
inductive FigmaNode : Type where
  | node (id : Str) (name : Str) (type : Str) (characters : Option Str)
         (children : Option (List FigmaNode)) (visible : Option Bool)

/-- The ≤4-character identifier slice appended to instance/component names:
`node.id.split(':')[1]?.substring(0,4) || node.id.substring(0,4)`
(the fallback also fires when the post-colon slice is the empty string,
which is falsy). -/
def shortIdOf (id : Str) : Str :=
  match (jsSplit ':' id).get? 1 with
  | some s => if s.take 4 = [] then id.take 4 else s.take 4
  | none => id.take 4

/-- Path entry contributed by a structural container node. -/
def pathEntryOf (id name ty : Str) : Str :=
  if ty = "INSTANCE".toList ∨ ty = "COMPONENT".toList then
    name ++ " [".toList ++ shortIdOf id ++ "]".toList
  else name

/-- `currentPath[currentPath.length - 1] || 'Root'` (the sentinel also fires
for an empty-string last segment, which is falsy). -/
def frameNameOf (currentPath : List Str) : Str :=
  match currentPath.getLast? with
  | some s => if s = [] then "Root".toList else s
  | none => "Root".toList

mutual

def extractTextNodes (n : FigmaNode) (framePath : List Str) (onlyVisible : Bool) :
    List FigmaTextNode :=
  match n with
  | .node id name ty chars children visible =>
    if onlyVisible ∧ visible = some false then []
    else
      let currentPath :=
        if ty = "FRAME".toList ∨ ty = "COMPONENT".toList ∨ ty = "INSTANCE".toList
        then framePath ++ [pathEntryOf id name ty]
        else framePath
      let own : List FigmaTextNode :=
        match chars with
        | some s =>
          if ty = "TEXT".toList ∧ s ≠ [] then
            [⟨jsTrim s, frameNameOf currentPath, currentPath, id⟩]
          else []
        | none => []
      own ++ (match children with
              | some cs => extractChildren cs currentPath onlyVisible
              | none => [])

def extractChildren (cs : List FigmaNode) (framePath : List Str) (onlyVisible : Bool) :
    List FigmaTextNode :=
  match cs with
  | [] => []
  | c :: rest =>
    extractTextNodes c framePath onlyVisible ++ extractChildren rest framePath onlyVisible

end

/-! ## Batched key generator (src/lib/utils/openai.ts)

JSON values are modelled by `JVal` (every non-object JSON value that can occur
in an `I18nJson` is a string, modelled by `leaf`; `undef` models JavaScript's
`undefined`, which only arises from property navigation, never from
`JSON.parse`).  The LLM provider is an oracle mapping the index of the
chat-completion call to its response; a response's content string is
abstracted by its parse result (`none` models missing *and* empty content —
both falsy in the source's checks). -/

inductive JVal : Type where
  | leaf (s : Str)
  | obj (fields : List (Str × JVal))
  | undef

abbrev Jobj := List (Str × JVal)

def topKeys (o : Jobj) : List Str := o.map Prod.fst

/-- `prefix ? prefix + "." + key : key` (the empty prefix is falsy). -/
def fullKey (pre key : Str) : Str := if pre = [] then key else pre ++ '.' :: key

mutual

/-- openai.ts `extractAllKeys`: dot-joined paths of all leaves, in field
order; a non-object value (string or `undefined`) is a leaf. -/
def extractAllKeys : Jobj → Str → List Str
  | [], _ => []
  | f :: rest, pre => keyChunk pre f ++ extractAllKeys rest pre

/-- The per-field block of leaf key-paths contributed to `extractAllKeys`. -/
def keyChunk (pre : Str) : Str × JVal → List Str
  | (key, v) => valKeys (fullKey pre key) v

def valKeys (full : Str) : JVal → List Str
  | .obj o => extractAllKeys o full
  | _ => [full]

end

def leafKeys (o : Jobj) : List Str := extractAllKeys o []

/-- JavaScript object property read (objects have unique keys; first match). -/
def lookupField : Jobj → Str → Option JVal
  | [], _ => none
  | (k, v) :: rest, key => if k = key then some v else lookupField rest key

/-- JavaScript object property write: overwrite in place, else append. -/
def setField (o : Jobj) (k : Str) (v : JVal) : Jobj :=
  if o.any fun f => f.1 = k then
    o.map fun f => if f.1 = k then (k, v) else f
  else o ++ [(k, v)]

/-- Object spread `\x7b...a, ...b\x7d`: a copy of `a` with `b`'s properties
assigned over it in order. -/
def spreadMerge (a b : Jobj) : Jobj :=
  b.foldl (fun acc f => setField acc f.1 f.2) a

/-- One step of `current = current[part]`: reading a property of `undefined`
throws (modelled as `Except.error`); a property of a primitive is
`undefined`. -/
def getProp : Option JVal → Str → Except Unit (Option JVal)
  | none, _ => .error ()
  | some (JVal.obj fields), part => .ok (lookupField fields part)
  | some _, _ => .ok none

def navigate (start : JVal) (parts : List Str) : Except Unit (Option JVal) :=
  parts.foldlM getProp (some start)

/-- openai.ts `findDuplicateKeys`. -/
def findDuplicateKeys (generated : Jobj) (existingKeys : List Str) : List Str :=
  (extractAllKeys generated []).filter fun key => existingKeys.contains key

/-- openai.ts line 189: `typeof current === 'string' ? current : ''`. -/
def navValue : Option JVal → Str
  | some (.leaf s) => s
  | _ => []

/-- openai.ts `createNodesForRegeneration`. -/
def createNodesForRegeneration (originalNodes : List FigmaTextNode)
    (generatedKeys : Jobj) (duplicateKeys : List Str) :
    Except Unit (List FigmaTextNode) :=
  duplicateKeys.foldlM
    (fun acc duplicateKey => do
      let current ← navigate (.obj generatedKeys) (jsSplit '.' duplicateKey)
      let value : Str := navValue current
      match originalNodes.find? (fun n => n.text == value) with
      | some node => pure (acc ++ [node])
      | none => pure acc)
    []

/-- The `filteredParsed` object: every retained (non-colliding) leaf key-path
of the first-pass result stored as a literal top-level property. -/
def buildFilteredParsed (parsed : Jobj) (duplicates : List Str) :
    Except Unit Jobj :=
  (extractAllKeys parsed []).foldlM
    (fun acc key =>
      if duplicates.contains key then pure acc
      else do
        let current ← navigate (.obj parsed) (jsSplit '.' key)
        pure (setField acc key (match current with
          | some v => v
          | none => JVal.undef)))
    []

/-! ### Prompt construction (`buildPrompt`) -/

def textsInfoOf (nodes : List FigmaTextNode) : Str :=
  jsJoin "\n\n".toList (nodes.enum.map fun p =>
    (toString (p.1 + 1)).toList ++ ". Frame: \"".toList ++ p.2.frameName ++
    "\" (Path: ".toList ++ jsJoin " > ".toList p.2.framePath ++
    ")\n   Text: \"".toList ++ p.2.text ++ "\"".toList)

def promptHeader : Str :=
  ("You are generating i18n keys for a Japanese UI based on a Figma file.\nFollow this key style example:\n\n").toList

def nestedRules : Str :=
  ("\n\nNaming Rules for NESTED structure:\n- Group keys by screen/frame name from the frame path\n- Use the first meaningful frame name as the top-level key in PascalCase (e.g., \"DashboardNavigation\", \"DepositDetailsModal\", \"Discover\")\n- Under each screen, create descriptive keys for the text elements in snake_case\n- Element keys should be short and descriptive (e.g., \"home\", \"insurance\", \"atm_title\", \"branch_name\")\n- You can create nested sub-groups when needed (e.g., \"merchandise_tab\" under \"DashboardNavigation\")\n- Common element types: title, subtitle, description, button, label, placeholder, error, hint, tab\n\nGiven the following Japanese texts from Figma:\n\n").toList

def nestedTail : Str :=
  ("\n\nGenerate NESTED i18n keys grouped by screen name. Each key MUST be unique within its screen.\nReturn ONLY valid JSON, no explanation or extra text.\n\nExpected format:\n\x7b\n  \"ScreenName\": \x7b\n    \"key\": \"日本語テキスト\",\n    \"another_key\": \"日本語テキスト\",\n    \"nested_group\": \x7b\n      \"sub_key\": \"日本語テキスト\"\n    \x7d\n  \x7d\n\x7d").toList

def flatRules : Str :=
  ("\n\nNaming Rules:\n- Use SHORT, FLAT keys with format: \"screen_type\" or \"screen_type_detail\"\n- Keep keys concise (2-3 parts max, separated by underscores)\n- Common patterns:\n  - \"contact_title\" - page/form title\n  - \"contact_email\" - email field label\n  - \"contact_category\" - category field label\n  - \"contact_submit\" - submit button\n  - \"menu_housewife\" - menu option\n  - \"savings_desc\" - description text\n- Component types: title, label, button, desc, body, placeholder, error, hint\n- Avoid redundancy: \"contactForm_label_email\" → \"contact_email\"\n- Use the frame path to understand screen context\n- Make keys unique - never repeat the same key\n\nGiven the following Japanese texts from Figma:\n\n").toList

def flatTail : Str :=
  ("\n\nGenerate SHORT, FLAT i18n keys (no nested objects). Each key MUST be unique.\nReturn ONLY valid JSON, no explanation or extra text.\n\nExpected format:\n\x7b\n  \"contact_title\": \"日本語テキスト\",\n  \"contact_email\": \"日本語テキスト\"\n\x7d").toList

def buildPrompt (nodes : List FigmaTextNode) (contextSample : Str)
    (useNestedKeys : Bool) : Str :=
  let textsInfo := textsInfoOf nodes
  if useNestedKeys then
    promptHeader ++ contextSample ++ nestedRules ++ textsInfo ++ nestedTail
  else
    promptHeader ++ contextSample ++ flatRules ++ textsInfo ++ flatTail

/-- The explicit instruction appended to the regeneration prompt. -/
def retrySuffix (duplicates : List Str) : Str :=
  ("\n\nIMPORTANT: The following keys are already taken and MUST NOT be used:\n").toList ++
  jsJoin ", ".toList duplicates ++
  ("\n\nGenerate completely DIFFERENT keys.").toList

/-! ### The batched generation loop -/

structure Usage where
  prompt_tokens : Nat
  completion_tokens : Nat
  total_tokens : Nat
deriving DecidableEq, Repr

/-- A provider response's content string, abstracted by its parse result
(a `json_object`-format response parses to an object when it parses). -/
inductive RawContent : Type where
  | malformed
  | parsed (obj : Jobj)

structure LlmResponse where
  content : Option RawContent
  usage : Option Usage

inductive GenError : Type where
  | noResponse   -- "No response from OpenAI"
  | invalidJson  -- "Invalid JSON response from OpenAI"
deriving DecidableEq, Repr

structure GenState where
  results : List Jobj
  allExistingKeys : List Str
  promptTokens : Nat
  completionTokens : Nat
  totalTokens : Nat
  calls : List (Bool × Str)   -- (isRetry, prompt) per issued call, in order
  callCount : Nat

/-- `Set.prototype.add` (insertion-ordered, membership-deduplicating). -/
def addKey (l : List Str) (k : Str) : List Str :=
  if l.contains k then l else l ++ [k]

def addAllKeys (l : List Str) (ks : List Str) : List Str := ks.foldl addKey l

def addUsage (st : GenState) (u : Option Usage) : GenState :=
  match u with
  | some usage =>
    { st with promptTokens := st.promptTokens + usage.prompt_tokens,
              completionTokens := st.completionTokens + usage.completion_tokens,
              totalTokens := st.totalTokens + usage.total_tokens }
  | none => st

def recordCall (st : GenState) (isRetry : Bool) (prompt : Str) : GenState :=
  { st with calls := st.calls ++ [(isRetry, prompt)],
            callCount := st.callCount + 1 }

/-- One iteration of the batch loop of `generateKeysInBatches`.  A thrown
exception anywhere inside the source's `try` block (JSON parse failure, or a
property-of-`undefined` access during key navigation) is caught by the one
`catch` and surfaces as the fatal "Invalid JSON response" error. -/
def processBatch (oracle : Nat → LlmResponse) (contextSample : Str)
    (useNestedKeys : Bool) (batch : List FigmaTextNode) (st : GenState) :
    Except GenError GenState :=
  let prompt := buildPrompt batch contextSample useNestedKeys
  let response := oracle st.callCount
  let st := recordCall st false prompt
  match response.content with
  | none => .error .noResponse
  | some raw =>
    let st := addUsage st response.usage
    match raw with
    | .malformed => .error .invalidJson
    | .parsed parsed =>
      let duplicates := findDuplicateKeys parsed st.allExistingKeys
      if duplicates.isEmpty then
        .ok { st with
              results := st.results ++ [parsed],
              allExistingKeys :=
                addAllKeys st.allExistingKeys (extractAllKeys parsed []) }
      else
        match createNodesForRegeneration batch parsed duplicates with
        | .error _ => .error .invalidJson
        | .ok nodesToRegenerate =>
          let retryPrompt :=
            buildPrompt nodesToRegenerate contextSample useNestedKeys ++
            retrySuffix duplicates
          let retryResponse := oracle st.callCount
          let st := recordCall st true retryPrompt
          match retryResponse.content with
          | none => .ok st    -- missing/empty retry content: batch silently dropped
          | some .malformed => .error .invalidJson
          | some (.parsed retryParsed) =>
            let st := addUsage st retryResponse.usage
            match buildFilteredParsed parsed duplicates with
            | .error _ => .error .invalidJson
            | .ok filteredParsed =>
              .ok { st with
                    results := st.results ++ [spreadMerge filteredParsed retryParsed],
                    allExistingKeys :=
                      addAllKeys
                        (addAllKeys st.allExistingKeys (extractAllKeys retryParsed []))
                        (extractAllKeys filteredParsed []) }

/-- Splitting loop of `mkBatches`, structurally recursive on a fuel bound
that always suffices (each step drops at least one element). -/
def mkBatchesGo (batchSize : Nat) : Nat → List FigmaTextNode → List (List FigmaTextNode)
  | _, [] => []
  | 0, _ => []
  | fuel + 1, nodes =>
    nodes.take batchSize :: mkBatchesGo batchSize fuel (nodes.drop batchSize)

/-- `batches.push(nodes.slice(i, i + batchSize))` for `i = 0, bs, 2·bs, …`
(a batch size of 0 would loop forever in the source; it is modelled as
producing no batches, so no result exists in either view). -/
def mkBatches (nodes : List FigmaTextNode) (batchSize : Nat) :
    List (List FigmaTextNode) :=
  if batchSize = 0 then [] else mkBatchesGo batchSize nodes.length nodes

def initState (existingKeys : List Str) : GenState :=
  { results := [], allExistingKeys := addAllKeys [] existingKeys,
    promptTokens := 0, completionTokens := 0, totalTokens := 0,
    calls := [], callCount := 0 }

def runState (nodes : List FigmaTextNode) (contextSample : Str)
    (existingKeys : List Str) (batchSize : Nat) (useNestedKeys : Bool)
    (oracle : Nat → LlmResponse) : Except GenError GenState :=
  (mkBatches nodes batchSize).foldlM
    (fun st batch => processBatch oracle contextSample useNestedKeys batch st)
    (initState existingKeys)

structure GenResult where
  generatedKeys : Jobj
  promptTokens : Nat
  completionTokens : Nat
  totalTokens : Nat

def generateKeysInBatches (nodes : List FigmaTextNode) (contextSample : Str)
    (existingKeys : List Str) (batchSize : Nat) (useNestedKeys : Bool)
    (oracle : Nat → LlmResponse) : Except GenError GenResult :=
  match runState nodes contextSample existingKeys batchSize useNestedKeys oracle with
  | .error e => .error e
  | .ok st =>
    .ok { generatedKeys := st.results.foldl spreadMerge [],
          promptTokens := st.promptTokens,
          completionTokens := st.completionTokens,
          totalTokens := st.totalTokens }

/-! ### Auxiliary predicates used by the theorems -/

mutual

/-- A parse result is well formed when every object level has pairwise
distinct, non-empty, dot-free field names, and every value is a string or a
well-formed object (never `undefined`, which `JSON.parse` cannot produce). -/
def JVal.wf : JVal → Bool
  | .leaf _ => true
  | .undef => false
  | .obj o => decide (topKeys o).Nodup && wfFields o

def wfFields : Jobj → Bool
  | [] => true
  | f :: rest => wfField f && wfFields rest

def wfField : Str × JVal → Bool
  | (k, v) => !decide (k = []) && !(k.contains '.') && JVal.wf v

end

def wfObj (o : Jobj) : Bool :=
  decide (topKeys o).Nodup && wfFields o

/-- States at the start of each processed batch (stopping at the first
failing batch). -/
def statesAlong (oracle : Nat → LlmResponse) (contextSample : Str)
    (useNestedKeys : Bool) : List (List FigmaTextNode) → GenState → List GenState
  | [], _ => []
  | b :: bs, st =>
    st :: (match processBatch oracle contextSample useNestedKeys b st with
           | .ok st' => statesAlong oracle contextSample useNestedKeys bs st'
           | .error _ => [])

/-- Hypothesis on the provider responses consumed from state `st`: the
first-pass parse result is well formed, and if it collides, the regeneration
parse result is well formed and all of its keys (top-level and leaf
key-paths) avoid both the current registry and the batch's retained keys. -/
def batchHyp (oracle : Nat → LlmResponse) (st : GenState) : Bool :=
  match (oracle st.callCount).content with
  | some (.parsed parsed) =>
    wfObj parsed &&
    (let duplicates := findDuplicateKeys parsed st.allExistingKeys
     duplicates.isEmpty ||
       match (oracle (st.callCount + 1)).content with
       | some (.parsed retryParsed) =>
         wfObj retryParsed &&
         (topKeys retryParsed ++ leafKeys retryParsed).all fun k =>
           !(st.allExistingKeys.contains k) &&
           !(((leafKeys parsed).filter fun k2 => !(duplicates.contains k2)).contains k)
       | _ => true)
  | _ => true

/-- The prompts of the first-pass (non-regeneration) calls, in order. -/
def firstPassPrompts (calls : List (Bool × Str)) : List Str :=
  (calls.filter fun c => !c.1).map Prod.snd

/-- The last two segments of a container path (the whole path if shorter). -/
def lastTwoSegments (p : List Str) : List Str := p.drop (p.length - 2)

/-- Loop invariant of the batched generator: the registry contains the
existing keys and every generated leaf key-path, the generated leaf key-paths
are globally duplicate-free, and none of them is an existing key. -/
def GenInv (ek : List Str) (st : GenState) : Prop :=
  (∀ k ∈ ek, k ∈ st.allExistingKeys) ∧
  (∀ o ∈ st.results, ∀ k ∈ extractAllKeys o [], k ∈ st.allExistingKeys) ∧
  ((st.results.map leafKeys).flatten).Nodup ∧
  (∀ o ∈ st.results, ∀ k ∈ extractAllKeys o [], k ∉ ek)

/-! ## Helper lemmas -/

theorem nat_ceil_div (a b : ℕ) (hb : 0 < b) :
    ⌈(a : ℚ) / b⌉₊ = (a + (b - 1)) / b := by
  have hb' : (0 : ℚ) < b := by exact_mod_cast hb
  apply le_antisymm
  · rw [Nat.ceil_le, div_le_iff₀ hb']
    have h1 := Nat.div_add_mod (a + (b - 1)) b
    have h2 := Nat.mod_lt (a + (b - 1)) hb
    have hr : (a + (b - 1)) % b ≤ b - 1 := by omega
    have h3 : a ≤ b * ((a + (b - 1)) / b) := by
      have h4 : a + (b - 1) ≤ b * ((a + (b - 1)) / b) + (b - 1) := by
        calc a + (b - 1) = b * ((a + (b - 1)) / b) + (a + (b - 1)) % b := h1.symm
          _ ≤ b * ((a + (b - 1)) / b) + (b - 1) := Nat.add_le_add_left hr _
      exact Nat.le_of_add_le_add_right h4
    calc (a : ℚ) ≤ ((b * ((a + (b - 1)) / b) : ℕ) : ℚ) := by exact_mod_cast h3
      _ = (((a + (b - 1)) / b : ℕ) : ℚ) * b := by push_cast; ring
  · by_cases hm : (a + (b - 1)) / b = 0
    · simp [hm]
    · have hmul := Nat.div_mul_le_self (a + (b - 1)) b
      have ha : 1 ≤ a := by
        by_contra hcon
        have ha0 : a = 0 := by omega
        subst ha0
        have : (b - 1) / b = 0 := Nat.div_eq_of_lt (by omega)
        simp [this] at hm
      have hlt : ((a + (b - 1)) / b - 1) * b < a := by
        rw [Nat.sub_one_mul]
        omega
      have hceil : ((a + (b - 1)) / b - 1) < ⌈(a : ℚ) / b⌉₊ := by
        rw [Nat.lt_ceil, lt_div_iff₀ hb']
        exact_mod_cast hlt
      omega

/-! ## C9 — token estimation formula -/

/-- C9 (amended): the `estimateTokens` of language.ts weights each
Japanese-script character at 1.5 tokens and each remaining UTF-16 unit at a
quarter token, both rounded up; the `estimateTokens` of token-estimator.ts
instead returns ⌈length / 3⌉. -/
theorem estimateTokens_per_script_weighting :
    (∀ s : Str, LanguageTs.estimateTokens s =
      ⌈(1.5 : ℚ) * japaneseCharCount s⌉₊ +
        ⌈((jsLength s - japaneseCharCount s : ℕ) : ℚ) / 4⌉₊) ∧
    (∀ s : Str, TokenEstimatorTs.estimateTokens s = ⌈(jsLength s : ℚ) / 3⌉₊) := by
  constructor
  · intro s
    have h1 : ⌈(1.5 : ℚ) * japaneseCharCount s⌉₊ =
        (3 * japaneseCharCount s + 1) / 2 := by
      rw [show (1.5 : ℚ) * (japaneseCharCount s : ℚ) =
            ((3 * japaneseCharCount s : ℕ) : ℚ) / ((2 : ℕ) : ℚ) by push_cast; ring]
      rw [nat_ceil_div _ 2 (by norm_num)]
    have h2 : ⌈((jsLength s - japaneseCharCount s : ℕ) : ℚ) / 4⌉₊ =
        (jsLength s - japaneseCharCount s + 3) / 4 := by
      rw [show ((jsLength s - japaneseCharCount s : ℕ) : ℚ) / 4 =
            ((jsLength s - japaneseCharCount s : ℕ) : ℚ) / ((4 : ℕ) : ℚ) by norm_num]
      rw [nat_ceil_div _ 4 (by norm_num)]
    rw [h1, h2]
    rfl
  · intro s
    rw [show ((jsLength s : ℕ) : ℚ) / 3 =
          ((jsLength s : ℕ) : ℚ) / ((3 : ℕ) : ℚ) by norm_num]
    rw [nat_ceil_div _ 3 (by norm_num)]
    rfl

/-- C9 counterexample: on the all-ASCII string "aaaa" the token-estimator.ts
`estimateTokens` returns 2, while the claimed per-script formula yields 1. -/
theorem estimateTokens_flat_heuristic_cex :
    TokenEstimatorTs.estimateTokens ("aaaa").toList = 2 ∧
    ⌈(1.5 : ℚ) * japaneseCharCount ("aaaa").toList⌉₊ +
      ⌈((jsLength ("aaaa").toList - japaneseCharCount ("aaaa").toList : ℕ) : ℚ) / 4⌉₊ = 1 := by
  constructor
  · rfl
  · have hj : japaneseCharCount ("aaaa").toList = 0 := by decide
    have hl : jsLength ("aaaa").toList = 4 := by decide
    rw [hj, hl]
    norm_num

/-! ## C4 — noise-filter monotonicity and stage accounting -/

theorem dedupSimpleGo_sublist (seen : List Str) (l : List FigmaTextNode) :
    (dedupSimpleGo seen l).Sublist l := by
  induction l generalizing seen with
  | nil => simp [dedupSimpleGo]
  | cons n rest ih =>
    simp only [dedupSimpleGo]
    split
    · exact (ih seen).cons n
    · exact (ih _).cons₂ n

theorem dedupContextGo_sublist (seen : List Str) (l : List FigmaTextNode) :
    (dedupContextGo seen l).Sublist l := by
  induction l generalizing seen with
  | nil => simp [dedupContextGo]
  | cons n rest ih =>
    simp only [dedupContextGo]
    split
    · exact (ih seen).cons n
    · exact (ih _).cons₂ n

theorem removeDuplicateTexts_sublist (nodes : List FigmaTextNode) (ca : Bool) :
    (removeDuplicateTexts nodes ca).Sublist nodes := by
  cases ca <;>
    simp [removeDuplicateTexts, dedupSimpleGo_sublist, dedupContextGo_sublist]

theorem pipelineStats (r0 r1 r2 r3 r4 : List FigmaTextNode) (c f d : Bool)
    (h1 : r1.Sublist r0) (h1' : c = false → r1 = r0)
    (h2 : r2.Sublist r1) (h2' : f = false → r2 = r1)
    (h3 : r3.Sublist r2)
    (h4 : r4.Sublist r3) (h4' : d = false → r4 = r3) :
    r4.Sublist r0 ∧
    (if c then r0.length - r1.length else 0) +
      (if f then r1.length - r2.length else 0) +
      (r2.length - r3.length) +
      (if d then r3.length - r4.length else 0) + r4.length = r0.length := by
  refine ⟨(h4.trans h3).trans (h2.trans h1), ?_⟩
  have l1 := h1.length_le
  have l2 := h2.length_le
  have l3 := h3.length_le
  have l4 := h4.length_le
  cases c with
  | false =>
    have e1 := h1' rfl
    cases f with
    | false =>
      have e2 := h2' rfl
      cases d with
      | false => have e4 := h4' rfl; subst e1 e2 e4; simp; omega
      | true => subst e1 e2; simp; omega
    | true =>
      cases d with
      | false => have e4 := h4' rfl; subst e1 e4; simp; omega
      | true => subst e1; simp; omega
  | true =>
    cases f with
    | false =>
      have e2 := h2' rfl
      cases d with
      | false => have e4 := h4' rfl; subst e2 e4; simp; omega
      | true => subst e2; simp; omega
    | true =>
      cases d with
      | false => have e4 := h4' rfl; subst e4; simp; omega
      | true => simp; omega

/-- C4: the filtered output of `filterTextNodes` is a subsequence of its
input; the four per-stage removal counts plus the surviving count sum to the
input count; and every stage that did not run reports a removal count of
zero. -/
theorem filterTextNodes_monotone (nodes : List FigmaTextNode)
    (options : FilterOptions) :
    ((filterTextNodes nodes options).1).Sublist nodes ∧
    (filterTextNodes nodes options).2.byContent +
      (filterTextNodes nodes options).2.byFrameName +
      (filterTextNodes nodes options).2.byLength +
      (filterTextNodes nodes options).2.duplicates +
      (filterTextNodes nodes options).1.length = nodes.length ∧
    (options.excludeByContent.getD true = false →
      (filterTextNodes nodes options).2.byContent = 0) ∧
    (options.excludeByFrameName.getD true = false →
      (filterTextNodes nodes options).2.byFrameName = 0) ∧
    (options.removeDuplicates.getD true = false →
      (filterTextNodes nodes options).2.duplicates = 0) := by
  simp only [filterTextNodes]
  set r1 := if options.excludeByContent.getD true = true then
      nodes.filter (fun n => !shouldExcludeByContent n.text) else nodes with hr1
  set r2 := if options.excludeByFrameName.getD true = true then
      r1.filter (fun n => !shouldExcludeByFrameName n.framePath) else r1 with hr2
  set r3 := r2.filter (fun n =>
      decide (options.minLength.getD 2 ≤ (jsLength (jsTrim n.text) : Int) ∧
        (jsLength (jsTrim n.text) : Int) ≤ options.maxLength.getD 500)) with hr3
  set r4 := if options.removeDuplicates.getD true = true then
      removeDuplicateTexts r3 (options.contextAwareDuplicates.getD true) else r3 with hr4
  have h1 : r1.Sublist nodes := by
    rw [hr1]; split <;> simp [List.filter_sublist]
  have h1' : options.excludeByContent.getD true = false → r1 = nodes := by
    intro h; rw [hr1, h]; simp
  have h2 : r2.Sublist r1 := by
    rw [hr2]; split <;> simp [List.filter_sublist]
  have h2' : options.excludeByFrameName.getD true = false → r2 = r1 := by
    intro h; rw [hr2, h]; simp
  have h3 : r3.Sublist r2 := List.filter_sublist _
  have h4 : r4.Sublist r3 := by
    rw [hr4]; split <;> simp [removeDuplicateTexts_sublist]
  have h4' : options.removeDuplicates.getD true = false → r4 = r3 := by
    intro h; rw [hr4, h]; simp
  have key := pipelineStats nodes r1 r2 r3 r4
    (options.excludeByContent.getD true) (options.excludeByFrameName.getD true)
    (options.removeDuplicates.getD true) h1 h1' h2 h2' h3 h4 h4'
  refine ⟨key.1, key.2, ?_, ?_, ?_⟩
  · intro h; rw [h]; simp
  · intro h; rw [h]; simp
  · intro h; rw [h]; simp

theorem filterTextNodes_monotone_witness :
    ((filterTextNodes [⟨"こんにちは".toList, "F".toList, [], "1".toList⟩]
        ⟨none, some false, some false, some false, none, none⟩).1).Sublist
      [⟨"こんにちは".toList, "F".toList, [], "1".toList⟩] ∧
    (filterTextNodes [⟨"こんにちは".toList, "F".toList, [], "1".toList⟩]
        ⟨none, some false, some false, some false, none, none⟩).2.byContent +
      (filterTextNodes [⟨"こんにちは".toList, "F".toList, [], "1".toList⟩]
        ⟨none, some false, some false, some false, none, none⟩).2.byFrameName +
      (filterTextNodes [⟨"こんにちは".toList, "F".toList, [], "1".toList⟩]
        ⟨none, some false, some false, some false, none, none⟩).2.byLength +
      (filterTextNodes [⟨"こんにちは".toList, "F".toList, [], "1".toList⟩]
        ⟨none, some false, some false, some false, none, none⟩).2.duplicates +
      (filterTextNodes [⟨"こんにちは".toList, "F".toList, [], "1".toList⟩]
        ⟨none, some false, some false, some false, none, none⟩).1.length =
      ([⟨"こんにちは".toList, "F".toList, [], "1".toList⟩] :
        List FigmaTextNode).length ∧
    ((⟨none, some false, some false, some false, none, none⟩ :
        FilterOptions).excludeByContent.getD true = false →
      (filterTextNodes [⟨"こんにちは".toList, "F".toList, [], "1".toList⟩]
        ⟨none, some false, some false, some false, none, none⟩).2.byContent = 0) ∧
    ((⟨none, some false, some false, some false, none, none⟩ :
        FilterOptions).excludeByFrameName.getD true = false →
      (filterTextNodes [⟨"こんにちは".toList, "F".toList, [], "1".toList⟩]
        ⟨none, some false, some false, some false, none, none⟩).2.byFrameName = 0) ∧
    ((⟨none, some false, some false, some false, none, none⟩ :
        FilterOptions).removeDuplicates.getD true = false →
      (filterTextNodes [⟨"こんにちは".toList, "F".toList, [], "1".toList⟩]
        ⟨none, some false, some false, some false, none, none⟩).2.duplicates = 0) :=
  filterTextNodes_monotone _ _

/-! ## C6 — context-aware deduplication -/

theorem append_sep_inj (c : Char) (a : Str) :
    ∀ (b x y : Str), c ∉ a → c ∉ b → a ++ c :: x = b ++ c :: y →
      a = b ∧ x = y := by
  induction a with
  | nil =>
    intro b x y _ hb h
    cases b with
    | nil => simpa using h
    | cons b0 bs =>
      simp only [List.nil_append, List.cons_append, List.cons.injEq] at h
      exact absurd (h.1 ▸ List.mem_cons_self b0 bs) hb
  | cons a0 as ih =>
    intro b x y ha hb h
    cases b with
    | nil =>
      simp only [List.cons_append, List.nil_append, List.cons.injEq] at h
      exact absurd (h.1 ▸ List.mem_cons_self a0 as) ha
    | cons b0 bs =>
      simp only [List.cons_append, List.cons.injEq] at h
      have := ih bs x y (fun hm => ha (List.mem_cons_of_mem _ hm))
        (fun hm => hb (List.mem_cons_of_mem _ hm)) h.2
      exact ⟨by rw [h.1, this.1], this.2⟩

theorem joinTwo_inj (as bs : List Str)
    (ha1 : 1 ≤ as.length) (ha2 : as.length ≤ 2)
    (hb1 : 1 ≤ bs.length) (hb2 : bs.length ≤ 2)
    (ga : ∀ s ∈ as, '>' ∉ s) (gb : ∀ s ∈ bs, '>' ∉ s)
    (h : jsJoin " > ".toList as = jsJoin " > ".toList bs) : as = bs := by
  match as, bs with
  | [x], [y] => simpa [jsJoin] using h
  | [x], [y1, y2] =>
    exfalso
    simp only [jsJoin] at h
    have hx : '>' ∉ x := ga x (by simp)
    apply hx
    rw [h]
    simp [String.toList]
  | [x1, x2], [y] =>
    exfalso
    simp only [jsJoin] at h
    have hy : '>' ∉ y := gb y (by simp)
    apply hy
    rw [← h]
    simp [String.toList]
  | [x1, x2], [y1, y2] =>
    simp only [jsJoin] at h
    have hx1 : '>' ∉ x1 := ga x1 (by simp)
    have hy1 : '>' ∉ y1 := gb y1 (by simp)
    have hre : (x1 ++ [' ']) ++ '>' :: (' ' :: x2) =
        (y1 ++ [' ']) ++ '>' :: (' ' :: y2) := by
      simpa [String.toList, List.append_assoc] using h
    have hinj := append_sep_inj '>' (x1 ++ [' ']) (y1 ++ [' ']) (' ' :: x2) (' ' :: y2)
      (by simp [hx1])
      (by simp [hy1])
      hre
    have hx1y1 : x1 = y1 := List.append_cancel_right hinj.1
    have hx2y2 : x2 = y2 := by simpa using hinj.2
    rw [hx1y1, hx2y2]

theorem contextKey_eq (n : FigmaTextNode) (h : n.framePath ≠ []) :
    contextKey n =
      jsJoin " > ".toList (lastTwoSegments n.framePath) ++ "::".toList ++ n.text := by
  match hp : n.framePath, h with
  | [x], _ =>
    simp [contextKey, lastTwoSegments, hp, jsJoin]
  | x :: y :: rest, _ =>
    have hlen : (x :: y :: rest).length ≥ 2 := by simp
    simp [contextKey, lastTwoSegments, hp, hlen]

/-- C6 (amended): for records with identical text whose non-empty container
paths differ in their last two segments, context-aware deduplication retains
both and non-context-aware deduplication retains only the first, provided no
path segment contains the character '>' (the context string joins the last
two segments with " > ", so a '>' inside a segment can make two different
paths produce the same context string); deduplication always preserves the
original relative order (its output is a subsequence of its input). -/
theorem removeDuplicateTexts_context_sensitivity
    (n1 n2 : FigmaTextNode) (nodes : List FigmaTextNode) (ca : Bool)
    (htext : n1.text = n2.text)
    (h1 : n1.framePath ≠ []) (h2 : n2.framePath ≠ [])
    (g1 : ∀ s ∈ n1.framePath, '>' ∉ s) (g2 : ∀ s ∈ n2.framePath, '>' ∉ s)
    (hdiff : lastTwoSegments n1.framePath ≠ lastTwoSegments n2.framePath) :
    removeDuplicateTexts [n1, n2] true = [n1, n2] ∧
    removeDuplicateTexts [n1, n2] false = [n1] ∧
    (removeDuplicateTexts nodes ca).Sublist nodes := by
  have hlast : ∀ (p : List Str), p ≠ [] →
      1 ≤ (lastTwoSegments p).length ∧ (lastTwoSegments p).length ≤ 2 := by
    intro p hp
    have : 0 < p.length := List.length_pos.mpr hp
    simp only [lastTwoSegments, List.length_drop]
    omega
  have hmem : ∀ (p : List Str) (s : Str), s ∈ lastTwoSegments p → s ∈ p := by
    intro p s hs
    exact (List.drop_sublist _ _).mem hs
  have hkey : contextKey n1 ≠ contextKey n2 := by
    intro hcon
    rw [contextKey_eq n1 h1, contextKey_eq n2 h2, htext] at hcon
    have hjoin : jsJoin " > ".toList (lastTwoSegments n1.framePath) =
        jsJoin " > ".toList (lastTwoSegments n2.framePath) := by
      have hre : jsJoin " > ".toList (lastTwoSegments n1.framePath) ++
            ("::".toList ++ n2.text) =
          jsJoin " > ".toList (lastTwoSegments n2.framePath) ++
            ("::".toList ++ n2.text) := by
        simpa [List.append_assoc] using hcon
      exact List.append_cancel_right hre
    exact hdiff (joinTwo_inj _ _ (hlast _ h1).1 (hlast _ h1).2
      (hlast _ h2).1 (hlast _ h2).2
      (fun s hs => g1 s (hmem _ _ hs)) (fun s hs => g2 s (hmem _ _ hs)) hjoin)
  refine ⟨?_, ?_, removeDuplicateTexts_sublist nodes ca⟩
  · simp only [removeDuplicateTexts, dedupContextGo, Bool.not_true]
    simp [Ne.symm hkey]
  · simp only [removeDuplicateTexts, dedupSimpleGo]
    simp [htext]

/-- C6 counterexample: the paths ["Option 1 > Body"] and ["Option 1","Body"]
differ in their last two segments and carry the same text, yet context-aware
deduplication drops the second record. -/
theorem removeDuplicateTexts_context_cex :
    lastTwoSegments (["Option 1 > Body".toList] : List Str) ≠
      lastTwoSegments ["Option 1".toList, "Body".toList] ∧
    removeDuplicateTexts
      [⟨"T".toList, [], ["Option 1 > Body".toList], "i1".toList⟩,
       ⟨"T".toList, [], ["Option 1".toList, "Body".toList], "i2".toList⟩] true =
      [⟨"T".toList, [], ["Option 1 > Body".toList], "i1".toList⟩] := by
  constructor
  · decide
  · decide

theorem removeDuplicateTexts_context_sensitivity_witness :
    removeDuplicateTexts
      [⟨"T".toList, [], ["A".toList], "i1".toList⟩,
       ⟨"T".toList, [], ["B".toList], "i2".toList⟩] true =
      [⟨"T".toList, [], ["A".toList], "i1".toList⟩,
       ⟨"T".toList, [], ["B".toList], "i2".toList⟩] ∧
    removeDuplicateTexts
      [⟨"T".toList, [], ["A".toList], "i1".toList⟩,
       ⟨"T".toList, [], ["B".toList], "i2".toList⟩] false =
      [⟨"T".toList, [], ["A".toList], "i1".toList⟩] ∧
    (removeDuplicateTexts
      [⟨"T".toList, [], ["A".toList], "i1".toList⟩,
       ⟨"T".toList, [], ["B".toList], "i2".toList⟩] true).Sublist
      [⟨"T".toList, [], ["A".toList], "i1".toList⟩,
       ⟨"T".toList, [], ["B".toList], "i2".toList⟩] :=
  removeDuplicateTexts_context_sensitivity
    ⟨"T".toList, [], ["A".toList], "i1".toList⟩
    ⟨"T".toList, [], ["B".toList], "i2".toList⟩ _ _
    rfl (by decide) (by decide) (by decide) (by decide) (by decide)

/-! ## C7 / C8 — document tree extractor -/


/-! ## C7 / C8 — document tree extractor -/

theorem mem_extractChildren {r : FigmaTextNode} {cs : List FigmaNode}
    {fp : List Str} {ov : Bool} :
    r ∈ extractChildren cs fp ov ↔ ∃ c ∈ cs, r ∈ extractTextNodes c fp ov := by
  induction cs with
  | nil => rw [extractChildren]; simp
  | cons c rest ih =>
    rw [extractChildren]
    simp [List.mem_append, ih]

theorem sizeOf_pos_node (n : FigmaNode) : 0 < sizeOf n := by
  rcases n with ⟨id, name, ty, chars, children, visible⟩
  simp

theorem extractTextNodes_path_aux :
    ∀ (d : Nat) (n : FigmaNode), sizeOf n ≤ d → ∀ (fp : List Str) (ov : Bool)
      (r : FigmaTextNode), r ∈ extractTextNodes n fp ov →
      ∃ rest, r.framePath = fp ++ rest := by
  intro d
  induction d with
  | zero => intro n h; have := sizeOf_pos_node n; omega
  | succ d ih =>
    intro n hle fp ov r hr
    rcases n with ⟨id, name, ty, chars, children, visible⟩
    rw [extractTextNodes] at hr
    by_cases hvis : ov = true ∧ visible = some false
    · simp [hvis] at hr
    · rw [if_neg hvis] at hr
      rcases List.mem_append.mp hr with hown | hch
      · cases chars with
        | none => simp at hown
        | some s =>
          dsimp only at hown
          by_cases hcond : ty = "TEXT".toList ∧ s ≠ []
          · rw [if_pos hcond] at hown
            rw [List.mem_singleton] at hown
            subst hown
            by_cases hcont : ty = "FRAME".toList ∨ ty = "COMPONENT".toList ∨
                ty = "INSTANCE".toList
            · refine ⟨[pathEntryOf id name ty], ?_⟩
              simp only [if_pos hcont]
            · refine ⟨[], ?_⟩
              simp only [if_neg hcont, List.append_nil]
          · rw [if_neg hcond] at hown
            simp at hown
      · match children with
        | none => simp at hch
        | some cs =>
          obtain ⟨c, hc, hrc⟩ := mem_extractChildren.mp hch
          have hszc : sizeOf c ≤ d := by
            have h1 := List.sizeOf_lt_of_mem hc
            have h2 : sizeOf (FigmaNode.node id name ty chars (some cs) visible) =
                1 + sizeOf id + sizeOf name + sizeOf ty + sizeOf chars +
                  (1 + sizeOf cs) + sizeOf visible := by
              simp
            omega
          by_cases hcont : ty = "FRAME".toList ∨ ty = "COMPONENT".toList ∨
              ty = "INSTANCE".toList
          · rw [if_pos hcont] at hrc
            obtain ⟨rest, hrest⟩ := ih c hszc _ ov r hrc
            exact ⟨[pathEntryOf id name ty] ++ rest, by rw [hrest, List.append_assoc]⟩
          · rw [if_neg hcont] at hrc
            exact ih c hszc fp ov r hrc

theorem extractTextNodes_path (n : FigmaNode) (fp : List Str) (ov : Bool)
    (r : FigmaTextNode) (hr : r ∈ extractTextNodes n fp ov) :
    ∃ rest, r.framePath = fp ++ rest :=
  extractTextNodes_path_aux (sizeOf n) n le_rfl fp ov r hr

/-- Every record extracted from within an INSTANCE node has the instance's
disambiguated path entry `name [shortId]` appended right after the ambient
path. -/
theorem extract_from_instance (id name : Str) (c : Option Str)
    (ch : Option (List FigmaNode)) (v : Option Bool) (p : List Str) (ov : Bool)
    (r : FigmaTextNode)
    (hr : r ∈ extractTextNodes (.node id name "INSTANCE".toList c ch v) p ov) :
    ∃ rest, r.framePath = (p ++ [pathEntryOf id name "INSTANCE".toList]) ++ rest := by
  rw [extractTextNodes] at hr
  by_cases hvis : ov = true ∧ v = some false
  · simp [hvis] at hr
  · rw [if_neg hvis] at hr
    have hcont : ("INSTANCE".toList = "FRAME".toList ∨
        "INSTANCE".toList = "COMPONENT".toList ∨
        "INSTANCE".toList = "INSTANCE".toList) := by decide
    rw [if_pos hcont] at hr
    have hown : r ∈ (match ch with
        | some cs =>
          extractChildren cs (p ++ [pathEntryOf id name "INSTANCE".toList]) ov
        | none => ([] : List FigmaTextNode)) := by
      cases c with
      | none => simpa using hr
      | some s =>
        have hne : ¬("INSTANCE".toList = "TEXT".toList ∧ s ≠ []) := by
          intro hcon
          exact absurd hcon.1 (by decide)
        dsimp only at hr
        rw [if_neg hne] at hr
        simpa using hr
    cases ch with
    | none => simp at hown
    | some cs =>
      obtain ⟨cnode, _, hrc⟩ := mem_extractChildren.mp hown
      exact extractTextNodes_path cnode _ ov r hrc

theorem pathEntry_instance_inj (id1 id2 name : Str)
    (h : pathEntryOf id1 name "INSTANCE".toList =
      pathEntryOf id2 name "INSTANCE".toList) :
    shortIdOf id1 = shortIdOf id2 := by
  have hcond : ("INSTANCE".toList = "INSTANCE".toList ∨
      "INSTANCE".toList = "COMPONENT".toList) := by decide
  rw [pathEntryOf, pathEntryOf, if_pos hcond, if_pos hcond] at h
  have h2 : shortIdOf id1 ++ "]".toList = shortIdOf id2 ++ "]".toList := by
    have h3 : (name ++ " [".toList) ++ (shortIdOf id1 ++ "]".toList) =
        (name ++ " [".toList) ++ (shortIdOf id2 ++ "]".toList) := by
      simpa [List.append_assoc] using h
    exact List.append_cancel_left h3
  exact List.append_cancel_right h2

/-- C7 (amended): two sibling INSTANCE nodes with the same display name
produce records with different `framePath`s whenever the ≤4-character
identifier slices (`id.split(':')[1]?.substring(0,4) || id.substring(0,4)`)
of their node identifiers differ — different full identifiers alone do not
suffice, since only that short slice enters the path. -/
theorem extract_instance_path_unique (p : List Str) (ov : Bool)
    (name id1 id2 : Str) (c1 c2 : Option Str)
    (ch1 ch2 : Option (List FigmaNode)) (v1 v2 : Option Bool)
    (hshort : shortIdOf id1 ≠ shortIdOf id2)
    (r1 r2 : FigmaTextNode)
    (hr1 : r1 ∈ extractTextNodes (.node id1 name "INSTANCE".toList c1 ch1 v1) p ov)
    (hr2 : r2 ∈ extractTextNodes (.node id2 name "INSTANCE".toList c2 ch2 v2) p ov) :
    r1.framePath ≠ r2.framePath := by
  obtain ⟨rest1, h1⟩ := extract_from_instance id1 name c1 ch1 v1 p ov r1 hr1
  obtain ⟨rest2, h2⟩ := extract_from_instance id2 name c2 ch2 v2 p ov r2 hr2
  intro hcon
  rw [h1, h2] at hcon
  simp only [List.append_assoc, List.singleton_append] at hcon
  have := List.append_cancel_left hcon
  have hentry : pathEntryOf id1 name "INSTANCE".toList =
      pathEntryOf id2 name "INSTANCE".toList := by
    injection this
  exact hshort (pathEntry_instance_inj id1 id2 name hentry)

/-- C7 counterexample: two sibling instances of "Card" with different node
identifiers "1:1234" and "1:12345" share the identifier slice "1234", so the
records extracted from within them carry identical `framePath`s. -/
theorem extract_instance_path_cex :
    ("1:1234").toList ≠ ("1:12345").toList ∧
    extractTextNodes
      (.node "0:1".toList "P".toList "FRAME".toList none
        (some [.node "1:1234".toList "Card".toList "INSTANCE".toList none
                 (some [.node "t1".toList "label".toList "TEXT".toList
                   (some "こんにちは".toList) none none]) none,
               .node "1:12345".toList "Card".toList "INSTANCE".toList none
                 (some [.node "t2".toList "label".toList "TEXT".toList
                   (some "こんにちは".toList) none none]) none]) none) [] true =
      [⟨"こんにちは".toList, "Card [1234]".toList,
        ["P".toList, "Card [1234]".toList], "t1".toList⟩,
       ⟨"こんにちは".toList, "Card [1234]".toList,
        ["P".toList, "Card [1234]".toList], "t2".toList⟩] := by
  exact ⟨by decide, rfl⟩

theorem extract_instance_path_unique_witness :
    (⟨"こんにちは".toList, "Card [1111]".toList, ["Card [1111]".toList],
      "t1".toList⟩ : FigmaTextNode).framePath ≠
    (⟨"こんにちは".toList, "Card [2222]".toList, ["Card [2222]".toList],
      "t2".toList⟩ : FigmaTextNode).framePath :=
  extract_instance_path_unique [] true "Card".toList
    "1:1111".toList "1:2222".toList none none
    (some [.node "t1".toList "label".toList "TEXT".toList
      (some "こんにちは".toList) none none])
    (some [.node "t2".toList "label".toList "TEXT".toList
      (some "こんにちは".toList) none none])
    none none (by decide) _ _ (by decide) (by decide)

/-- C8 (amended): a TEXT node emits a record exactly when its `characters`
field is present and non-empty *before* trimming; the emitted record's text
is the trimmed content, which is empty when `characters` was
whitespace-only. -/
theorem extract_text_emission (id name : Str) (chars : Option Str)
    (ch : Option (List FigmaNode)) (v : Option Bool) (p : List Str) (ov : Bool)
    (hvis : ¬(ov = true ∧ v = some false)) :
    extractTextNodes (.node id name "TEXT".toList chars ch v) p ov =
      (match chars with
       | some s => if s ≠ [] then [⟨jsTrim s, frameNameOf p, p, id⟩] else []
       | none => []) ++ extractChildren (ch.getD []) p ov := by
  rw [extractTextNodes, if_neg hvis]
  have hcont : ¬("TEXT".toList = "FRAME".toList ∨
      "TEXT".toList = "COMPONENT".toList ∨
      "TEXT".toList = "INSTANCE".toList) := by decide
  rw [if_neg hcont]
  dsimp only
  congr 1
  · cases chars with
    | none => rfl
    | some s =>
      dsimp only
      by_cases hs : s = []
      · subst hs
        simp
      · rw [if_pos (show "TEXT".toList = "TEXT".toList ∧ s ≠ [] from ⟨rfl, hs⟩),
            if_pos hs]
  · cases ch with
    | none => rfl
    | some cs => rfl

/-- C8 counterexample: a TEXT node whose characters are a single space is
truthy, so a record *is* emitted — with empty trimmed text. -/
theorem extract_text_whitespace_cex :
    extractTextNodes (.node "1:1".toList "t".toList "TEXT".toList
        (some " ".toList) none none) [] true =
      [⟨[], "Root".toList, [], "1:1".toList⟩] ∧
    jsTrim (" ").toList = [] ∧ ((" ").toList : Str) ≠ [] := by
  exact ⟨rfl, rfl, by decide⟩

theorem extract_text_emission_witness :
    extractTextNodes (.node "1:1".toList "t".toList "TEXT".toList
        (some "ようこそ".toList) none none) [] true =
      (match (some "ようこそ".toList : Option Str) with
       | some s => if s ≠ [] then
           [⟨jsTrim s, frameNameOf [], [], "1:1".toList⟩] else []
       | none => []) ++ extractChildren ((none : Option (List FigmaNode)).getD []) [] true :=
  extract_text_emission "1:1".toList "t".toList (some "ようこそ".toList)
    none none [] true (by simp)

/-! ## C3 — final map is the iterated shallow merge -/

theorem setField_mem {o : Jobj} {k : Str} {v : JVal} {f : Str × JVal}
    (h : f ∈ setField o k v) : f ∈ o ∨ f = (k, v) := by
  rw [setField] at h
  split at h
  · rcases List.mem_map.mp h with ⟨g, hg, hfg⟩
    by_cases hk : g.1 = k
    · right; rw [← hfg]; simp [hk]
    · left; rw [← hfg]; simpa [hk] using hg
  · rcases List.mem_append.mp h with h | h
    · exact Or.inl h
    · right; simpa using h

theorem spreadMerge_mem {a b : Jobj} {f : Str × JVal}
    (h : f ∈ spreadMerge a b) : f ∈ a ∨ f ∈ b := by
  induction b generalizing a with
  | nil => exact Or.inl h
  | cons g b' ih =>
    rw [spreadMerge, List.foldl_cons] at h
    rcases ih (a := setField a g.1 g.2) h with h' | h'
    · rcases setField_mem h' with h'' | h''
      · exact Or.inl h''
      · right; rw [h'']; exact List.mem_cons_self _ _
    · right; exact List.mem_cons_of_mem _ h'

theorem lookup_map_self (o : Jobj) (k : Str) (v : JVal)
    (hany : (o.any fun f => f.1 = k) = true) :
    lookupField (o.map fun f => if f.1 = k then (k, v) else f) k = some v := by
  induction o with
  | nil => simp at hany
  | cons f rest ih =>
    rw [List.map_cons]
    by_cases hf : f.1 = k
    · rw [if_pos hf, lookupField, if_pos rfl]
    · rw [if_neg hf, lookupField, if_neg hf]
      apply ih
      rcases List.any_eq_true.mp hany with ⟨g, hg, hgk⟩
      rcases List.mem_cons.mp hg with hgf | hg'
      · exact absurd (of_decide_eq_true (hgf ▸ hgk)) hf
      · exact List.any_eq_true.mpr ⟨g, hg', hgk⟩

theorem lookup_map_other (o : Jobj) (k k' : Str) (v : JVal) (hne : k' ≠ k) :
    lookupField (o.map fun f => if f.1 = k then (k, v) else f) k' =
      lookupField o k' := by
  induction o with
  | nil => rfl
  | cons f rest ih =>
    rw [List.map_cons]
    by_cases hf : f.1 = k
    · rw [if_pos hf, lookupField, lookupField,
        if_neg (show ¬k = k' from fun h => hne h.symm),
        if_neg (show ¬f.1 = k' from by rw [hf]; exact fun h => hne h.symm)]
      exact ih
    · rw [if_neg hf, lookupField, lookupField]
      by_cases hf' : f.1 = k'
      · rw [if_pos hf', if_pos hf']
      · rw [if_neg hf', if_neg hf']
        exact ih

theorem lookup_append_self (o : Jobj) (k : Str) (v : JVal)
    (hnone : ¬(o.any fun f => f.1 = k) = true) :
    lookupField (o ++ [(k, v)]) k = some v := by
  induction o with
  | nil => simp [lookupField]
  | cons f rest ih =>
    have hf : ¬f.1 = k := by
      intro hcon
      exact hnone (List.any_eq_true.mpr ⟨f, List.mem_cons_self f rest, by simp [hcon]⟩)
    rw [List.cons_append, lookupField, if_neg hf]
    exact ih (fun hcon => hnone (by
      rcases List.any_eq_true.mp hcon with ⟨g, hg, hgk⟩
      exact List.any_eq_true.mpr ⟨g, List.mem_cons_of_mem f hg, hgk⟩))

theorem lookup_append_other (o : Jobj) (k k' : Str) (v : JVal) (hne : k' ≠ k) :
    lookupField (o ++ [(k, v)]) k' = lookupField o k' := by
  induction o with
  | nil =>
    rw [List.nil_append, lookupField, lookupField,
      if_neg (show ¬k = k' from fun h => hne h.symm)]
    rfl
  | cons f rest ih =>
    rw [List.cons_append, lookupField, lookupField]
    by_cases hf : f.1 = k'
    · rw [if_pos hf, if_pos hf]
    · rw [if_neg hf, if_neg hf]
      exact ih

theorem lookupField_setField_self (o : Jobj) (k : Str) (v : JVal) :
    lookupField (setField o k v) k = some v := by
  rw [setField]
  split <;> rename_i hany
  · exact lookup_map_self o k v hany
  · exact lookup_append_self o k v hany

theorem lookupField_setField_other (o : Jobj) (k k' : Str) (v : JVal)
    (hne : k' ≠ k) : lookupField (setField o k v) k' = lookupField o k' := by
  rw [setField]
  split
  · exact lookup_map_other o k k' v hne
  · exact lookup_append_other o k k' v hne

theorem lookupField_spreadMerge_not_mem (a b : Jobj) (k : Str)
    (h : ¬k ∈ topKeys b) :
    lookupField (spreadMerge a b) k = lookupField a k := by
  induction b generalizing a with
  | nil => rfl
  | cons g b' ih =>
    rw [topKeys, List.map_cons, List.mem_cons] at h
    push_neg at h
    rw [spreadMerge, List.foldl_cons]
    rw [show List.foldl (fun acc f => setField acc f.1 f.2) (setField a g.1 g.2) b' =
      spreadMerge (setField a g.1 g.2) b' from rfl]
    rw [ih _ (by intro hcon; exact h.2 hcon)]
    exact lookupField_setField_other a g.1 k g.2 h.1

theorem lookupField_spreadMerge_right (a b : Jobj) (k : Str) (v : JVal)
    (hnd : (topKeys b).Nodup) (h : lookupField b k = some v) :
    lookupField (spreadMerge a b) k = some v := by
  induction b generalizing a with
  | nil => simp [lookupField] at h
  | cons g b' ih =>
    rw [topKeys, List.map_cons, List.nodup_cons] at hnd
    rw [lookupField] at h
    rw [spreadMerge, List.foldl_cons]
    rw [show List.foldl (fun acc f => setField acc f.1 f.2) (setField a g.1 g.2) b' =
      spreadMerge (setField a g.1 g.2) b' from rfl]
    by_cases hk : g.1 = k
    · rw [if_pos hk] at h
      have hnotb' : ¬k ∈ topKeys b' := by
        intro hcon
        rw [← hk] at hcon
        exact hnd.1 hcon
      rw [lookupField_spreadMerge_not_mem _ _ _ hnotb', ← hk,
        lookupField_setField_self]
      exact h
    · rw [if_neg hk] at h
      exact ih _ hnd.2 h

/-- C3: the final LocalizationMap is the iterated shallow merge, in batch
order, of the ordered list of per-batch outputs; a later batch's top-level
key overwrites an earlier one's, and the merge never recurses into nested
values (the per-batch outputs [\x7bA:\x7bx:1\x7d\x7d, \x7bA:\x7by:2\x7d\x7d]
merge to \x7bA:\x7by:2\x7d\x7d, not \x7bA:\x7bx:1,y:2\x7d\x7d). -/
theorem generateKeys_merge_shallow (nodes : List FigmaTextNode)
    (contextSample : Str) (existingKeys : List Str) (batchSize : Nat)
    (useNestedKeys : Bool) (oracle : Nat → LlmResponse) (st : GenState)
    (hrun : runState nodes contextSample existingKeys batchSize useNestedKeys
      oracle = .ok st) :
    generateKeysInBatches nodes contextSample existingKeys batchSize
        useNestedKeys oracle =
      .ok ⟨st.results.foldl spreadMerge [], st.promptTokens,
        st.completionTokens, st.totalTokens⟩ ∧
    (∀ (a b : Jobj) (k : Str) (v : JVal), (topKeys b).Nodup →
      lookupField b k = some v → lookupField (spreadMerge a b) k = some v) ∧
    ([[("A".toList, JVal.obj [("x".toList, .leaf "1".toList)])],
      [("A".toList, JVal.obj [("y".toList, .leaf "2".toList)])]].foldl
        spreadMerge [] =
      [("A".toList, JVal.obj [("y".toList, .leaf "2".toList)])]) ∧
    ([[("A".toList, JVal.obj [("x".toList, .leaf "1".toList)])],
      [("A".toList, JVal.obj [("y".toList, .leaf "2".toList)])]].foldl
        spreadMerge [] ≠
      [("A".toList, JVal.obj [("x".toList, .leaf "1".toList),
        ("y".toList, .leaf "2".toList)])]) := by
  refine ⟨?_, fun a b k v => lookupField_spreadMerge_right a b k v, rfl, ?_⟩
  · rw [generateKeysInBatches, hrun]
  · intro hcon
    simp only [List.foldl_cons, List.foldl_nil] at hcon
    have : spreadMerge (spreadMerge []
        [("A".toList, JVal.obj [("x".toList, JVal.leaf "1".toList)])]
          : Jobj)
        [("A".toList, JVal.obj [("y".toList, JVal.leaf "2".toList)])] =
        [("A".toList, JVal.obj [("y".toList, JVal.leaf "2".toList)])] := rfl
    rw [this] at hcon
    have h2 := List.head_eq_of_cons_eq hcon
    have h3 := (Prod.mk.injEq _ _ _ _).mp h2
    have h4 := JVal.obj.injEq _ _ |>.mp h3.2
    exact absurd (congrArg List.length h4) (by simp)

theorem generateKeys_merge_shallow_witness :
    generateKeysInBatches [⟨"v".toList, "F".toList, [], "1:1".toList⟩] []
        [] 10 false
        (fun _ => ⟨some (.parsed [("k".toList, .leaf "v".toList)]), none⟩) =
      .ok ⟨[[("k".toList, JVal.leaf "v".toList)]].foldl spreadMerge [], 0, 0, 0⟩ ∧
    (∀ (a b : Jobj) (k : Str) (v : JVal), (topKeys b).Nodup →
      lookupField b k = some v → lookupField (spreadMerge a b) k = some v) ∧
    ([[("A".toList, JVal.obj [("x".toList, .leaf "1".toList)])],
      [("A".toList, JVal.obj [("y".toList, .leaf "2".toList)])]].foldl
        spreadMerge [] =
      [("A".toList, JVal.obj [("y".toList, .leaf "2".toList)])]) ∧
    ([[("A".toList, JVal.obj [("x".toList, .leaf "1".toList)])],
      [("A".toList, JVal.obj [("y".toList, .leaf "2".toList)])]].foldl
        spreadMerge [] ≠
      [("A".toList, JVal.obj [("x".toList, .leaf "1".toList),
        ("y".toList, .leaf "2".toList)])]) :=
  generateKeys_merge_shallow [⟨"v".toList, "F".toList, [], "1:1".toList⟩] []
    [] 10 false
    (fun _ => ⟨some (.parsed [("k".toList, .leaf "v".toList)]), none⟩)
    ⟨[[("k".toList, JVal.leaf "v".toList)]], ["k".toList], 0, 0, 0,
      [(false, buildPrompt [⟨"v".toList, "F".toList, [], "1:1".toList⟩] [] false)], 1⟩
    rfl

/-! ## C2 — fatality of missing response content -/

theorem addUsage_results (st : GenState) (u : Option Usage) :
    (addUsage st u).results = st.results := by cases u <;> rfl

theorem addUsage_keys (st : GenState) (u : Option Usage) :
    (addUsage st u).allExistingKeys = st.allExistingKeys := by cases u <;> rfl

theorem addUsage_callCount (st : GenState) (u : Option Usage) :
    (addUsage st u).callCount = st.callCount := by cases u <;> rfl

theorem addUsage_calls (st : GenState) (u : Option Usage) :
    (addUsage st u).calls = st.calls := by cases u <;> rfl

/-- C2 (amended): a missing/empty *first-pass* response content aborts the
whole multi-batch operation with the "no response" error (and any batch error
aborts the whole invocation), but a missing/empty *regeneration* response
content is NOT fatal: the batch is silently dropped (its results and
registry contribution vanish) and processing continues. -/
theorem processBatch_content_fatality :
    (∀ (oracle : Nat → LlmResponse) (contextSample : Str) (useNestedKeys : Bool)
      (batch : List FigmaTextNode) (st : GenState),
      (oracle st.callCount).content = none →
      processBatch oracle contextSample useNestedKeys batch st =
        .error GenError.noResponse) ∧
    (∀ (nodes : List FigmaTextNode) (contextSample : Str)
      (existingKeys : List Str) (batchSize : Nat) (useNestedKeys : Bool)
      (oracle : Nat → LlmResponse) (e : GenError),
      runState nodes contextSample existingKeys batchSize useNestedKeys oracle =
        .error e →
      generateKeysInBatches nodes contextSample existingKeys batchSize
        useNestedKeys oracle = .error e) ∧
    (∀ (oracle : Nat → LlmResponse) (contextSample : Str) (useNestedKeys : Bool)
      (batch : List FigmaTextNode) (st : GenState) (parsed : Jobj)
      (ns : List FigmaTextNode),
      (oracle st.callCount).content = some (.parsed parsed) →
      findDuplicateKeys parsed st.allExistingKeys ≠ [] →
      createNodesForRegeneration batch parsed
        (findDuplicateKeys parsed st.allExistingKeys) = .ok ns →
      (oracle (st.callCount + 1)).content = none →
      ∃ st', processBatch oracle contextSample useNestedKeys batch st = .ok st' ∧
        st'.results = st.results ∧ st'.allExistingKeys = st.allExistingKeys) := by
  refine ⟨?_, ?_, ?_⟩
  · intro oracle contextSample useNestedKeys batch st h
    rw [processBatch]
    simp only [recordCall, h]
  · intro nodes contextSample existingKeys batchSize useNestedKeys oracle e h
    rw [generateKeysInBatches, h]
  · intro oracle contextSample useNestedKeys batch st parsed ns h1 h2 h3 h4
    rw [processBatch]
    dsimp only [recordCall]
    rw [h1]
    dsimp only
    simp only [addUsage_keys, addUsage_results, addUsage_callCount, addUsage_calls]
    rw [if_neg (by simpa [List.isEmpty_iff] using h2), h3]
    dsimp only
    rw [h4]
    refine ⟨_, rfl, ?_, ?_⟩
    · simp [recordCall, addUsage_results]
    · simp [recordCall, addUsage_keys]

/-- C2 counterexample: with existing key "k", a first pass returning
\x7b"k":"v"\x7d and a regeneration call with missing content, the whole
invocation succeeds with an empty map — the missing retry content was not
fatal, the batch was silently dropped. -/
theorem retry_missing_content_not_fatal_cex :
    generateKeysInBatches [⟨"v".toList, "F".toList, [], "1:1".toList⟩] []
      ["k".toList] 10 false
      (fun i => if i = 0
        then ⟨some (.parsed [("k".toList, .leaf "v".toList)]), none⟩
        else ⟨none, none⟩) =
    .ok ⟨[], 0, 0, 0⟩ := rfl

theorem processBatch_content_fatality_witness :
    processBatch (fun _ => ⟨none, none⟩) [] false
      [⟨"v".toList, "F".toList, [], "1:1".toList⟩] (initState []) =
      .error GenError.noResponse ∧
    generateKeysInBatches [⟨"v".toList, "F".toList, [], "1:1".toList⟩] [] []
      10 false (fun _ => ⟨none, none⟩) = .error GenError.noResponse ∧
    (∃ st', processBatch
      (fun i => if i = 0
        then ⟨some (.parsed [("k".toList, .leaf "v".toList)]), none⟩
        else ⟨none, none⟩) [] false
      [⟨"v".toList, "F".toList, [], "1:1".toList⟩] (initState ["k".toList]) =
        .ok st' ∧
      st'.results = (initState ["k".toList]).results ∧
      st'.allExistingKeys = (initState ["k".toList]).allExistingKeys) :=
  ⟨processBatch_content_fatality.1 _ _ _ _ _ rfl,
   processBatch_content_fatality.2.1 _ _ _ _ _ _ _ rfl,
   processBatch_content_fatality.2.2 _ _ _ _ _ _
     [⟨"v".toList, "F".toList, [], "1:1".toList⟩] rfl (by decide) rfl rfl⟩

/-! ## C5 — first-pass prompts are independent of the existing-key list -/

theorem processBatch_calls (oracle : Nat → LlmResponse) (contextSample : Str)
    (useNestedKeys : Bool) (b : List FigmaTextNode) (st st' : GenState)
    (h : processBatch oracle contextSample useNestedKeys b st = .ok st') :
    st'.calls.filter (fun c => !c.1) =
      st.calls.filter (fun c => !c.1) ++
        [(false, buildPrompt b contextSample useNestedKeys)] := by
  rw [processBatch] at h
  dsimp only [recordCall] at h
  split at h
  · exact absurd h (by simp)
  · split at h
    · exact absurd h (by simp)
    · split at h
      · injection h with h
        subst h
        simp [addUsage_calls, List.filter_append]
      · split at h
        · exact absurd h (by simp)
        · split at h
          · injection h with h
            subst h
            simp [addUsage_calls, List.filter_append]
          · exact absurd h (by simp)
          · split at h
            · exact absurd h (by simp)
            · injection h with h
              subst h
              simp [addUsage_calls, List.filter_append]

theorem foldlM_firstPass (oracle : Nat → LlmResponse) (contextSample : Str)
    (useNestedKeys : Bool) :
    ∀ (bsl : List (List FigmaTextNode)) (st0 st : GenState),
      bsl.foldlM (fun s batch =>
        processBatch oracle contextSample useNestedKeys batch s) st0 = .ok st →
      firstPassPrompts st.calls =
        firstPassPrompts st0.calls ++
          bsl.map (fun b => buildPrompt b contextSample useNestedKeys) := by
  intro bsl
  induction bsl with
  | nil =>
    intro st0 st h
    simp only [List.foldlM_nil] at h
    injection h with h
    subst h
    simp
  | cons b rest ih =>
    intro st0 st h
    rw [List.foldlM_cons] at h
    cases hstep : processBatch oracle contextSample useNestedKeys b st0 with
    | error e => rw [hstep] at h; exact Except.noConfusion h
    | ok st1 =>
      rw [hstep] at h
      have hbind : (Except.ok st1 >>= fun s =>
          rest.foldlM (fun s batch =>
            processBatch oracle contextSample useNestedKeys batch s) s) =
          rest.foldlM (fun s batch =>
            processBatch oracle contextSample useNestedKeys batch s) st1 := rfl
      rw [hbind] at h
      have h1 := processBatch_calls oracle contextSample useNestedKeys b st0 st1 hstep
      have h2 := ih st1 st h
      have h3 : firstPassPrompts st1.calls =
          firstPassPrompts st0.calls ++
            [buildPrompt b contextSample useNestedKeys] := by
        rw [firstPassPrompts, h1, List.map_append]
        rfl
      rw [h2, h3]
      simp

/-- C5: the first-pass prompts of a run are exactly `buildPrompt` applied to
each batch (no existing-key material), so two runs that differ only in the
supplied existing-key list issue character-for-character identical first-pass
prompts. -/
theorem firstPass_prompts_existing_key_free (nodes : List FigmaTextNode)
    (contextSample : Str) (batchSize : Nat) (useNestedKeys : Bool)
    (oracle : Nat → LlmResponse) (ek1 ek2 : List Str) (st1 st2 : GenState)
    (h1 : runState nodes contextSample ek1 batchSize useNestedKeys oracle = .ok st1)
    (h2 : runState nodes contextSample ek2 batchSize useNestedKeys oracle = .ok st2) :
    firstPassPrompts st1.calls = firstPassPrompts st2.calls ∧
    firstPassPrompts st1.calls =
      (mkBatches nodes batchSize).map
        (fun b => buildPrompt b contextSample useNestedKeys) := by
  have e1 := foldlM_firstPass oracle contextSample useNestedKeys
    (mkBatches nodes batchSize) (initState ek1) st1 h1
  have e2 := foldlM_firstPass oracle contextSample useNestedKeys
    (mkBatches nodes batchSize) (initState ek2) st2 h2
  have hinit : ∀ ek : List Str, firstPassPrompts (initState ek).calls = [] := by
    intro ek; rfl
  rw [hinit, List.nil_append] at e1 e2
  exact ⟨e1.trans e2.symm, e1⟩

theorem firstPass_prompts_existing_key_free_witness :
    firstPassPrompts (GenState.calls
      ⟨[[("k".toList, JVal.leaf "v".toList)]], ["k".toList], 0, 0, 0,
        [(false, buildPrompt [⟨"v".toList, "F".toList, [], "1:1".toList⟩] [] false)],
        1⟩) =
    firstPassPrompts (GenState.calls
      ⟨[[("k".toList, JVal.leaf "v".toList)]], ["k".toList], 0, 0, 0,
        [(false, buildPrompt [⟨"v".toList, "F".toList, [], "1:1".toList⟩] [] false),
         (true, buildPrompt [⟨"v".toList, "F".toList, [], "1:1".toList⟩] [] false ++
           retrySuffix ["k".toList])],
        2⟩) ∧
    firstPassPrompts (GenState.calls
      ⟨[[("k".toList, JVal.leaf "v".toList)]], ["k".toList], 0, 0, 0,
        [(false, buildPrompt [⟨"v".toList, "F".toList, [], "1:1".toList⟩] [] false)],
        1⟩) =
    (mkBatches [⟨"v".toList, "F".toList, [], "1:1".toList⟩] 10).map
      (fun b => buildPrompt b [] false) :=
  firstPass_prompts_existing_key_free
    [⟨"v".toList, "F".toList, [], "1:1".toList⟩] [] 10 false
    (fun _ => ⟨some (.parsed [("k".toList, .leaf "v".toList)]), none⟩)
    [] ["k".toList] _ _ rfl rfl

/-! ## Key-path machinery for C1 / C10 -/

theorem str_contains_iff (l : List Str) (x : Str) :
    l.contains x = true ↔ x ∈ l := by
  induction l with
  | nil => simp
  | cons a rest ih =>
    rw [List.contains_cons, Bool.or_eq_true, beq_iff_eq, ih, List.mem_cons]

theorem char_contains_iff (l : Str) (c : Char) :
    l.contains c = true ↔ c ∈ l := by
  induction l with
  | nil => simp
  | cons a rest ih =>
    rw [List.contains_cons, Bool.or_eq_true, beq_iff_eq, ih, List.mem_cons]

theorem jsSplit_no_sep (c : Char) (s : Str) (h : c ∉ s) : jsSplit c s = [s] := by
  induction s with
  | nil => rfl
  | cons d rest ih =>
    have hd : ¬(d = c) := fun hcon => h (List.mem_cons.mpr (Or.inl hcon.symm))
    rw [jsSplit, if_neg hd, ih (fun hcon => h (List.mem_cons_of_mem d hcon))]

theorem jsSplit_sep_append (c : Char) (a rest : Str) (h : c ∉ a) :
    jsSplit c (a ++ c :: rest) = a :: jsSplit c rest := by
  induction a with
  | nil => simp [jsSplit]
  | cons d as ih =>
    have hd : ¬(d = c) := fun hcon => h (List.mem_cons.mpr (Or.inl hcon.symm))
    rw [List.cons_append, jsSplit, if_neg hd,
      ih (fun hcon => h (List.mem_cons_of_mem d hcon))]

theorem fullKey_nil (k : Str) : fullKey [] k = k := rfl

theorem fullKey_ne_nil (pre k : Str) (h : pre ≠ []) :
    fullKey pre k = pre ++ '.' :: k := by
  rw [fullKey, if_neg h]

theorem extractAllKeys_eq_join (o : Jobj) (pre : Str) :
    extractAllKeys o pre = (o.map (keyChunk pre)).flatten := by
  induction o with
  | nil => rfl
  | cons f rest ih => rw [extractAllKeys, List.map_cons, List.flatten_cons, ih]

theorem extractAllKeys_append (o1 o2 : Jobj) (pre : Str) :
    extractAllKeys (o1 ++ o2) pre =
      extractAllKeys o1 pre ++ extractAllKeys o2 pre := by
  induction o1 with
  | nil => rfl
  | cons f rest ih =>
    rw [List.cons_append, extractAllKeys, extractAllKeys, ih, List.append_assoc]

theorem wfFields_mem (o : Jobj) (hwf : wfFields o = true) :
    ∀ f ∈ o, f.1 ≠ [] ∧ f.1.contains '.' = false ∧ f.2.wf = true := by
  induction o with
  | nil => simp
  | cons g rest ih =>
    intro f hf
    rw [wfFields] at hwf
    have hg := Bool.and_elim_left hwf
    have hrest := Bool.and_elim_right hwf
    rcases List.mem_cons.mp hf with hfg | hf'
    · subst hfg
      match f with
      | (k, v) =>
        rw [wfField] at hg
        simp only [Bool.and_eq_true, Bool.not_eq_true'] at hg
        exact ⟨by simpa using hg.1.1, hg.1.2, hg.2⟩
    · exact ih hrest f hf'

theorem sizeOf_pos_jobj (o : Jobj) : 0 < sizeOf o := by
  cases o <;> simp

theorem extract_shift :
    ∀ (d : Nat) (o : Jobj), sizeOf o ≤ d → wfFields o = true →
      ∀ pre : Str, pre ≠ [] →
      extractAllKeys o pre = (extractAllKeys o []).map (fun k => pre ++ '.' :: k) := by
  intro d
  induction d with
  | zero => intro o h; have := sizeOf_pos_jobj o; omega
  | succ d ih =>
    intro o hle hwf pre hpre
    match o with
    | [] => rfl
    | (k, v) :: rest =>
      rw [wfFields, Bool.and_eq_true] at hwf
      rw [wfField, Bool.and_eq_true, Bool.and_eq_true] at hwf
      have hk : k ≠ [] := by simpa using hwf.1.1.1
      have hv : v.wf = true := hwf.1.2
      have hrest : wfFields rest = true := hwf.2
      have hszrest : sizeOf rest ≤ d := by
        have : sizeOf ((k, v) :: rest) = 1 + sizeOf (k, v) + sizeOf rest := by simp
        have hp : 0 < sizeOf (k, v) := by simp
        omega
      rw [extractAllKeys, extractAllKeys, List.map_append,
        ← ih rest hszrest hrest pre hpre]
      congr 1
      rw [keyChunk, keyChunk]
      cases v with
      | leaf s =>
        rw [show valKeys (fullKey pre k) (JVal.leaf s) = [fullKey pre k] from rfl,
          show valKeys (fullKey [] k) (JVal.leaf s) = [fullKey [] k] from rfl,
          fullKey_ne_nil pre k hpre, fullKey_nil, List.map_cons, List.map_nil]
      | undef =>
        rw [show valKeys (fullKey pre k) JVal.undef = [fullKey pre k] from rfl,
          show valKeys (fullKey [] k) JVal.undef = [fullKey [] k] from rfl,
          fullKey_ne_nil pre k hpre, fullKey_nil, List.map_cons, List.map_nil]
      | obj o' =>
        have hwfo' : wfFields o' = true := by
          rw [JVal.wf, Bool.and_eq_true] at hv
          exact hv.2
        have hszo' : sizeOf o' ≤ d := by
          have h1 : sizeOf ((k, JVal.obj o') :: rest) =
              1 + (1 + sizeOf k + (1 + sizeOf o')) + sizeOf rest := by simp
          have := sizeOf_pos_jobj rest
          omega
        rw [show valKeys (fullKey pre k) (JVal.obj o') =
            extractAllKeys o' (fullKey pre k) from rfl,
          show valKeys (fullKey [] k) (JVal.obj o') =
            extractAllKeys o' (fullKey [] k) from rfl,
          fullKey_ne_nil pre k hpre, fullKey_nil]
        rw [ih o' hszo' hwfo' (pre ++ '.' :: k) (by simp),
          ih o' hszo' hwfo' k hk, List.map_map]
        apply List.map_congr_left
        intro r _
        simp [List.append_assoc]

theorem wf_obj_eq (o : Jobj) : (JVal.obj o).wf = wfObj o := rfl

theorem not_mem_of_contains_false (l : Str) (c : Char)
    (h : l.contains c = false) : c ∉ l := by
  intro hm
  rw [(char_contains_iff l c).mpr hm] at h
  exact Bool.noConfusion h

theorem append_dot_injective (k : Str) :
    Function.Injective (fun r : Str => k ++ '.' :: r) := by
  intro r1 r2 h
  simpa using List.append_cancel_left h

theorem mem_keyChunk_shape (k : Str) (v : JVal) (x : Str)
    (hk : k ≠ []) (hv : v.wf = true) (hx : x ∈ keyChunk [] (k, v)) :
    x = k ∨ ∃ r, x = k ++ '.' :: r := by
  cases v with
  | leaf s =>
    left
    rw [show keyChunk [] (k, JVal.leaf s) = [fullKey [] k] from rfl,
      fullKey_nil] at hx
    simpa using hx
  | undef => exact absurd hv (by rw [JVal.wf]; simp)
  | obj o' =>
    right
    rw [show keyChunk [] (k, JVal.obj o') = extractAllKeys o' (fullKey [] k)
      from rfl, fullKey_nil] at hx
    rw [wf_obj_eq, wfObj, Bool.and_eq_true] at hv
    rw [extract_shift (sizeOf o') o' le_rfl hv.2 k hk] at hx
    rcases List.mem_map.mp hx with ⟨r, _, hr⟩
    exact ⟨r, hr.symm⟩

theorem chunk_disjoint (f g : Str × JVal)
    (hf1 : f.1 ≠ []) (hfdot : f.1.contains '.' = false) (hfv : f.2.wf = true)
    (hg1 : g.1 ≠ []) (hgdot : g.1.contains '.' = false) (hgv : g.2.wf = true)
    (hne : f.1 ≠ g.1) : List.Disjoint (keyChunk [] f) (keyChunk [] g) := by
  obtain ⟨kf, vf⟩ := f
  obtain ⟨kg, vg⟩ := g
  intro x hxf hxg
  have hfd := not_mem_of_contains_false _ _ hfdot
  have hgd := not_mem_of_contains_false _ _ hgdot
  have sf := mem_keyChunk_shape kf vf x hf1 hfv hxf
  have sg := mem_keyChunk_shape kg vg x hg1 hgv hxg
  rcases sf with rfl | ⟨r1, h1⟩
  · rcases sg with hgg | ⟨r2, h2⟩
    · exact hne hgg
    · exact hfd (by
        rw [h2]
        exact List.mem_append.mpr (Or.inr (List.mem_cons_self _ _)))
  · rcases sg with rfl | ⟨r2, h2⟩
    · exact hgd (by
        rw [h1]
        exact List.mem_append.mpr (Or.inr (List.mem_cons_self _ _)))
    · have := append_sep_inj '.' kf kg r1 r2 hfd hgd (h1 ▸ h2)
      exact hne this.1

theorem extract_nodup :
    ∀ (d : Nat) (o : Jobj), sizeOf o ≤ d → wfObj o = true →
      (extractAllKeys o []).Nodup := by
  intro d
  induction d with
  | zero => intro o h; have := sizeOf_pos_jobj o; omega
  | succ d ih =>
    intro o hle hwf
    rw [wfObj, Bool.and_eq_true] at hwf
    have hnd : (topKeys o).Nodup := of_decide_eq_true hwf.1
    have hmem := wfFields_mem o hwf.2
    rw [extractAllKeys_eq_join, List.nodup_flatten]
    constructor
    · intro l hl
      rcases List.mem_map.mp hl with ⟨f, hf, hlf⟩
      obtain ⟨kf, vf⟩ := f
      obtain ⟨hk, hkdot, hvwf⟩ := hmem (kf, vf) hf
      subst hlf
      cases vf with
      | leaf s =>
        rw [show keyChunk [] (kf, JVal.leaf s) = [fullKey [] kf] from rfl]
        exact List.nodup_singleton _
      | undef => exact absurd hvwf (by rw [JVal.wf]; simp)
      | obj o' =>
        rw [show keyChunk [] (kf, JVal.obj o') =
          extractAllKeys o' (fullKey [] kf) from rfl, fullKey_nil]
        rw [wf_obj_eq] at hvwf
        have hsz : sizeOf o' ≤ d := by
          have h1 := List.sizeOf_lt_of_mem hf
          have h2 : sizeOf (kf, JVal.obj o') = 1 + sizeOf kf + (1 + sizeOf o') := by
            simp
          omega
        have hwfo' : wfFields o' = true := by
          rw [wfObj, Bool.and_eq_true] at hvwf
          exact hvwf.2
        rw [extract_shift (sizeOf o') o' le_rfl hwfo' kf hk]
        exact (ih o' hsz hvwf).map (append_dot_injective kf)
    · rw [List.pairwise_map]
      have hp : o.Pairwise (fun a b => a.1 ≠ b.1) :=
        List.pairwise_map.mp hnd
      refine List.Pairwise.imp_of_mem ?_ hp
      intro f g hf hg hne
      obtain ⟨h1, h2, h3⟩ := hmem f hf
      obtain ⟨h4, h5, h6⟩ := hmem g hg
      exact chunk_disjoint f g h1 h2 h3 h4 h5 h6 hne

theorem lookup_of_mem_nodup (o : Jobj) (k : Str) (v : JVal)
    (hnd : (topKeys o).Nodup) (hm : (k, v) ∈ o) : lookupField o k = some v := by
  induction o with
  | nil => simp at hm
  | cons f rest ih =>
    rw [topKeys, List.map_cons, List.nodup_cons] at hnd
    rcases List.mem_cons.mp hm with heq | hm'
    · rw [← heq, lookupField, if_pos rfl]
    · have hf : ¬f.1 = k := by
        intro hcon
        apply hnd.1
        rw [hcon]
        exact List.mem_map.mpr ⟨(k, v), hm', rfl⟩
      rw [lookupField, if_neg hf]
      exact ih hnd.2 hm'

theorem nav_leaf :
    ∀ (d : Nat) (o : Jobj), sizeOf o ≤ d → wfObj o = true →
      ∀ k ∈ extractAllKeys o [], ∃ s,
        navigate (.obj o) (jsSplit '.' k) = .ok (some (.leaf s)) := by
  intro d
  induction d with
  | zero => intro o h; have := sizeOf_pos_jobj o; omega
  | succ d ih =>
    intro o hle hwf k hk
    have hwf' := hwf
    rw [wfObj, Bool.and_eq_true] at hwf'
    have hnd : (topKeys o).Nodup := of_decide_eq_true hwf'.1
    have hmem := wfFields_mem o hwf'.2
    rw [extractAllKeys_eq_join, List.mem_flatten] at hk
    rcases hk with ⟨l, hl, hkl⟩
    rcases List.mem_map.mp hl with ⟨f, hf, hlf⟩
    obtain ⟨kf, vf⟩ := f
    obtain ⟨hk1, hk2, hk3⟩ := hmem (kf, vf) hf
    subst hlf
    have hdotfree : '.' ∉ kf := not_mem_of_contains_false _ _ hk2
    cases vf with
    | leaf s =>
      rw [show keyChunk [] (kf, JVal.leaf s) = [fullKey [] kf] from rfl,
        fullKey_nil, List.mem_singleton] at hkl
      refine ⟨s, ?_⟩
      rw [hkl, jsSplit_no_sep '.' kf hdotfree, navigate, List.foldlM_cons,
        show getProp (some (JVal.obj o)) kf = .ok (lookupField o kf) from rfl,
        lookup_of_mem_nodup o kf (JVal.leaf s) hnd hf]
      rfl
    | undef => exact absurd hk3 (by rw [JVal.wf]; simp)
    | obj o' =>
      rw [show keyChunk [] (kf, JVal.obj o') =
        extractAllKeys o' (fullKey [] kf) from rfl, fullKey_nil] at hkl
      rw [wf_obj_eq] at hk3
      have hwfo' : wfFields o' = true := by
        rw [wfObj, Bool.and_eq_true] at hk3
        exact hk3.2
      rw [extract_shift (sizeOf o') o' le_rfl hwfo' kf hk1] at hkl
      rcases List.mem_map.mp hkl with ⟨r, hr, hkr⟩
      rw [← hkr]
      have hsz : sizeOf o' ≤ d := by
        have h1 := List.sizeOf_lt_of_mem hf
        have h2 : sizeOf (kf, JVal.obj o') = 1 + sizeOf kf + (1 + sizeOf o') := by
          simp
        omega
      obtain ⟨s, hnav⟩ := ih o' hsz hk3 r hr
      refine ⟨s, ?_⟩
      have hstep : navigate (.obj o) (kf :: jsSplit '.' r) =
          navigate (.obj o') (jsSplit '.' r) := by
        rw [navigate, List.foldlM_cons,
          show getProp (some (JVal.obj o)) kf = .ok (lookupField o kf) from rfl,
          lookup_of_mem_nodup o kf (JVal.obj o') hnd hf]
        rfl
      rw [jsSplit_sep_append '.' kf r hdotfree, hstep]
      exact hnav

theorem any_key_iff (o : Jobj) (k : Str) :
    (o.any fun f => f.1 = k) = true ↔ k ∈ topKeys o := by
  rw [List.any_eq_true, topKeys]
  constructor
  · rintro ⟨f, hf, hfk⟩
    exact List.mem_map.mpr ⟨f, hf, of_decide_eq_true hfk⟩
  · intro h
    rcases List.mem_map.mp h with ⟨f, hf, hfk⟩
    exact ⟨f, hf, decide_eq_true hfk⟩

theorem setField_append (o : Jobj) (k : Str) (v : JVal)
    (h : ¬k ∈ topKeys o) : setField o k v = o ++ [(k, v)] := by
  rw [setField, if_neg (fun hcon => h ((any_key_iff o k).mp hcon))]

theorem spreadMerge_disjoint_append (b : Jobj) :
    ∀ (a : Jobj), (topKeys b).Nodup → (∀ k ∈ topKeys b, ¬k ∈ topKeys a) →
    spreadMerge a b = a ++ b := by
  induction b with
  | nil => intro a _ _; simp [spreadMerge]
  | cons g b' ih =>
    intro a hnd hdisj
    rw [topKeys, List.map_cons, List.nodup_cons] at hnd
    rw [spreadMerge, List.foldl_cons,
      show List.foldl (fun acc f => setField acc f.1 f.2) (setField a g.1 g.2) b' =
        spreadMerge (setField a g.1 g.2) b' from rfl]
    have hg : ¬g.1 ∈ topKeys a :=
      hdisj g.1 (by rw [topKeys, List.map_cons]; exact List.mem_cons_self _ _)
    rw [setField_append a g.1 g.2 hg]
    rw [ih (a ++ [(g.1, g.2)]) hnd.2 ?_]
    · simp
    · intro k hk
      rw [topKeys, List.map_append]
      intro hcon
      rcases List.mem_append.mp hcon with hca | hcg
      · exact hdisj k (by rw [topKeys, List.map_cons]; exact List.mem_cons_of_mem _ hk) hca
      · simp only [List.map_cons, List.map_nil, List.mem_singleton] at hcg
        exact hnd.1 (hcg ▸ hk)

theorem leafKeys_all_leaf (o : Jobj)
    (h : ∀ f ∈ o, ∃ s, f.2 = JVal.leaf s) :
    extractAllKeys o [] = topKeys o := by
  induction o with
  | nil => rfl
  | cons f rest ih =>
    obtain ⟨s, hs⟩ := h f (List.mem_cons_self f rest)
    obtain ⟨kf, vf⟩ := f
    simp only at hs
    subst hs
    rw [extractAllKeys,
      show keyChunk [] (kf, JVal.leaf s) = [fullKey [] kf] from rfl,
      fullKey_nil, topKeys, List.map_cons,
      ih (fun g hg => h g (List.mem_cons_of_mem _ hg))]
    rfl

theorem mem_addKey (l : List Str) (k a : Str) :
    a ∈ addKey l k ↔ a ∈ l ∨ a = k := by
  rw [addKey]
  split <;> rename_i hc
  · constructor
    · exact Or.inl
    · rintro (h | rfl)
      · exact h
      · exact (str_contains_iff l a).mp hc
  · simp [List.mem_append]

theorem mem_addAllKeys (ks : List Str) :
    ∀ (l : List Str) (a : Str), a ∈ addAllKeys l ks ↔ a ∈ l ∨ a ∈ ks := by
  induction ks with
  | nil => intro l a; simp [addAllKeys]
  | cons k ks' ih =>
    intro l a
    rw [addAllKeys, List.foldl_cons,
      show List.foldl addKey (addKey l k) ks' = addAllKeys (addKey l k) ks' from rfl,
      ih, mem_addKey]
    simp only [List.mem_cons]
    tauto

theorem bfp_go (parsed : Jobj) (dups : List Str) :
    ∀ (keys : List Str) (acc : Jobj),
      (∀ k ∈ keys, ∃ s,
        navigate (.obj parsed) (jsSplit '.' k) = .ok (some (.leaf s))) →
      keys.Nodup →
      (∀ k ∈ keys, ¬k ∈ topKeys acc) →
      (∀ f ∈ acc, ∃ s, f.2 = JVal.leaf s) →
      ∃ fp, keys.foldlM
        (fun acc key =>
          if dups.contains key then pure acc
          else do
            let current ← navigate (.obj parsed) (jsSplit '.' key)
            pure (setField acc key (match current with
              | some v => v
              | none => JVal.undef))) acc = .ok fp ∧
        topKeys fp = topKeys acc ++ keys.filter (fun k => !dups.contains k) ∧
        (∀ f ∈ fp, ∃ s, f.2 = JVal.leaf s) := by
  intro keys
  induction keys with
  | nil =>
    intro acc _ _ _ hleaf
    exact ⟨acc, rfl, by simp, hleaf⟩
  | cons k rest ih =>
    intro acc hnav hnd hfresh hleaf
    rw [List.nodup_cons] at hnd
    rw [List.foldlM_cons]
    by_cases hdk : dups.contains k
    · rw [if_pos hdk]
      obtain ⟨fp, hfold, hkeys, hlf⟩ := ih acc
        (fun k' hk' => hnav k' (List.mem_cons_of_mem _ hk'))
        hnd.2
        (fun k' hk' => hfresh k' (List.mem_cons_of_mem _ hk'))
        hleaf
      refine ⟨fp, hfold, ?_, hlf⟩
      rw [hkeys, List.filter_cons, if_neg (by rw [hdk]; decide)]
    · rw [if_neg hdk]
      obtain ⟨s, hs⟩ := hnav k (List.mem_cons_self _ _)
      have hset : setField acc k (JVal.leaf s) = acc ++ [(k, JVal.leaf s)] :=
        setField_append acc k _ (hfresh k (List.mem_cons_self _ _))
      have hstep : (do
          let current ← navigate (.obj parsed) (jsSplit '.' k)
          pure (setField acc k (match current with
            | some v => v
            | none => JVal.undef))) =
          (pure (setField acc k (JVal.leaf s)) : Except Unit Jobj) := by
        rw [hs]
        rfl
      rw [hstep]
      have hbind : ∀ (g : Jobj → Except Unit Jobj) (x : Jobj),
          ((pure x : Except Unit Jobj) >>= g) = g x := fun _ _ => rfl
      rw [hbind]
      obtain ⟨fp, hfold, hkeys, hlf⟩ := ih (setField acc k (JVal.leaf s))
        (fun k' hk' => hnav k' (List.mem_cons_of_mem _ hk'))
        hnd.2
        (by
          intro k' hk'
          rw [hset, topKeys, List.map_append]
          intro hcon
          rcases List.mem_append.mp hcon with hca | hcg
          · exact hfresh k' (List.mem_cons_of_mem _ hk') hca
          · simp only [List.map_cons, List.map_nil, List.mem_singleton] at hcg
            exact hnd.1 (hcg ▸ hk'))
        (by
          intro f hf
          rw [hset] at hf
          rcases List.mem_append.mp hf with hfa | hfn
          · exact hleaf f hfa
          · simp only [List.mem_singleton] at hfn
            exact ⟨s, by rw [hfn]⟩)
      refine ⟨fp, hfold, ?_, hlf⟩
      have hf : dups.contains k = false := by
        cases h : dups.contains k
        · rfl
        · exact absurd h hdk
      rw [hkeys, hset, topKeys, List.map_append, List.filter_cons,
        if_pos (by rw [hf]; rfl)]
      simp [topKeys]

theorem buildFilteredParsed_ok (parsed : Jobj) (dups : List Str)
    (hwf : wfObj parsed = true) :
    ∃ fp, buildFilteredParsed parsed dups = .ok fp ∧
      topKeys fp = (extractAllKeys parsed []).filter (fun k => !dups.contains k) ∧
      (∀ f ∈ fp, ∃ s, f.2 = JVal.leaf s) := by
  obtain ⟨fp, hfold, hkeys, hlf⟩ := bfp_go parsed dups (extractAllKeys parsed []) []
    (nav_leaf (sizeOf parsed) parsed le_rfl hwf)
    (extract_nodup (sizeOf parsed) parsed le_rfl hwf)
    (by intro k _ hcon; simp [topKeys] at hcon)
    (by intro f hf; simp at hf)
  exact ⟨fp, hfold, by simpa using hkeys, hlf⟩

theorem foldlM_ok_of_steps {α β : Type} (f : β → α → Except Unit β)
    (ks : List α) :
    ∀ (acc : β), (∀ (acc' : β) (k : α), k ∈ ks → ∃ r, f acc' k = .ok r) →
      ∃ ns, ks.foldlM f acc = .ok ns := by
  induction ks with
  | nil => intro acc _; exact ⟨acc, rfl⟩
  | cons k rest ih =>
    intro acc hstep
    obtain ⟨r, hr⟩ := hstep acc k (List.mem_cons_self _ _)
    rw [List.foldlM_cons, hr]
    exact ih r (fun acc' k' hk' => hstep acc' k' (List.mem_cons_of_mem _ hk'))

theorem createNodes_ok (batch : List FigmaTextNode) (parsed : Jobj)
    (dups : List Str)
    (hnav : ∀ k ∈ dups, ∃ r,
      navigate (.obj parsed) (jsSplit '.' k) = .ok r) :
    ∃ ns, createNodesForRegeneration batch parsed dups = .ok ns := by
  rw [createNodesForRegeneration]
  apply foldlM_ok_of_steps
  intro acc k hk
  obtain ⟨r, hr⟩ := hnav k hk
  cases hfind : batch.find? (fun n => n.text == navValue r) with
  | some node =>
    refine ⟨acc ++ [node], ?_⟩
    show (do
        let current ← navigate (.obj parsed) (jsSplit '.' k)
        let value : Str := navValue current
        match batch.find? (fun n => n.text == value) with
        | some node => pure (acc ++ [node])
        | none => pure acc) = Except.ok (acc ++ [node])
    rw [hr]
    show (match batch.find? (fun n => n.text == navValue r) with
      | some node => (pure (acc ++ [node]) : Except Unit (List FigmaTextNode))
      | none => pure acc) = Except.ok (acc ++ [node])
    rw [hfind]
    rfl
  | none =>
    refine ⟨acc, ?_⟩
    show (do
        let current ← navigate (.obj parsed) (jsSplit '.' k)
        let value : Str := navValue current
        match batch.find? (fun n => n.text == value) with
        | some node => pure (acc ++ [node])
        | none => pure acc) = Except.ok acc
    rw [hr]
    show (match batch.find? (fun n => n.text == navValue r) with
      | some node => (pure (acc ++ [node]) : Except Unit (List FigmaTextNode))
      | none => pure acc) = Except.ok acc
    rw [hfind]
    rfl

theorem mem_extract_spreadMerge (a b : Jobj) (k : Str)
    (h : k ∈ extractAllKeys (spreadMerge a b) []) :
    k ∈ extractAllKeys a [] ∨ k ∈ extractAllKeys b [] := by
  rw [extractAllKeys_eq_join, List.mem_flatten] at h
  rcases h with ⟨l, hl, hkl⟩
  rcases List.mem_map.mp hl with ⟨f, hf, hlf⟩
  subst hlf
  rcases spreadMerge_mem hf with hfa | hfb
  · left
    rw [extractAllKeys_eq_join, List.mem_flatten]
    exact ⟨keyChunk [] f, List.mem_map.mpr ⟨f, hfa, rfl⟩, hkl⟩
  · right
    rw [extractAllKeys_eq_join, List.mem_flatten]
    exact ⟨keyChunk [] f, List.mem_map.mpr ⟨f, hfb, rfl⟩, hkl⟩

theorem mem_leafKeys_foldl (L : List Jobj) :
    ∀ (acc : Jobj) (k : Str), k ∈ extractAllKeys (L.foldl spreadMerge acc) [] →
      k ∈ extractAllKeys acc [] ∨ ∃ o ∈ L, k ∈ extractAllKeys o [] := by
  induction L with
  | nil => intro acc k h; exact Or.inl h
  | cons o L' ih =>
    intro acc k h
    rw [List.foldl_cons] at h
    rcases ih (spreadMerge acc o) k h with h' | ⟨o', ho', hk'⟩
    · rcases mem_extract_spreadMerge acc o k h' with h'' | h''
      · exact Or.inl h''
      · exact Or.inr ⟨o, List.mem_cons_self _ _, h''⟩
    · exact Or.inr ⟨o', List.mem_cons_of_mem _ ho', hk'⟩

/-! ## Inversion of a successful batch -/

theorem processBatch_ok_inv (oracle : Nat → LlmResponse) (contextSample : Str)
    (useNestedKeys : Bool) (batch : List FigmaTextNode) (st st' : GenState)
    (h : processBatch oracle contextSample useNestedKeys batch st = .ok st') :
    ∃ parsed, (oracle st.callCount).content = some (.parsed parsed) ∧
      ((findDuplicateKeys parsed st.allExistingKeys = [] ∧
        st'.results = st.results ++ [parsed] ∧
        st'.allExistingKeys =
          addAllKeys st.allExistingKeys (extractAllKeys parsed [])) ∨
       (findDuplicateKeys parsed st.allExistingKeys ≠ [] ∧
         (((oracle (st.callCount + 1)).content = none ∧
           st'.results = st.results ∧
           st'.allExistingKeys = st.allExistingKeys) ∨
          (∃ retryParsed fp,
            (oracle (st.callCount + 1)).content = some (.parsed retryParsed) ∧
            buildFilteredParsed parsed
              (findDuplicateKeys parsed st.allExistingKeys) = .ok fp ∧
            st'.results = st.results ++ [spreadMerge fp retryParsed] ∧
            st'.allExistingKeys =
              addAllKeys
                (addAllKeys st.allExistingKeys (extractAllKeys retryParsed []))
                (extractAllKeys fp []))))) := by
  rw [processBatch] at h
  dsimp only [recordCall] at h
  split at h
  · exact absurd h (by simp)
  rename_i raw heq1
  split at h
  · exact absurd h (by simp)
  rename_i parsed
  simp only [addUsage_keys, addUsage_results, addUsage_callCount,
    addUsage_calls] at h
  split at h
  · rename_i heqd
    injection h with h
    subst h
    refine ⟨parsed, heq1, Or.inl ⟨List.isEmpty_iff.mp heqd, ?_, ?_⟩⟩
    · simp [addUsage_results]
    · simp [addUsage_keys]
  · rename_i heqd
    have hdne : findDuplicateKeys parsed st.allExistingKeys ≠ [] := by
      intro hc
      rw [hc] at heqd
      exact absurd heqd (by decide)
    split at h
    · exact absurd h (by simp)
    rename_i ns heq3
    split at h
    · rename_i heq4
      injection h with h
      subst h
      refine ⟨parsed, heq1, Or.inr ⟨hdne, Or.inl ⟨heq4, ?_, ?_⟩⟩⟩
      · simp [addUsage_results]
      · simp [addUsage_keys]
    · exact absurd h (by simp)
    · rename_i retryParsed heq4
      split at h
      · exact absurd h (by simp)
      rename_i fp heq5
      injection h with h
      subst h
      refine ⟨parsed, heq1,
        Or.inr ⟨hdne, Or.inr ⟨retryParsed, fp, heq4, heq5, ?_, ?_⟩⟩⟩
      · simp [addUsage_results]
      · simp [addUsage_keys]

/-! ## The collision-freedom invariant -/

theorem contains_false_not_mem (l : List Str) (x : Str)
    (h : l.contains x = false) : x ∉ l := by
  intro hm
  rw [(str_contains_iff l x).mpr hm] at h
  exact absurd h (by decide)

theorem fdk_nil_not_mem (parsed : Jobj) (ekeys : List Str)
    (h : findDuplicateKeys parsed ekeys = []) :
    ∀ k ∈ extractAllKeys parsed [], k ∉ ekeys := by
  intro k hk hmem
  have hmf : k ∈ (extractAllKeys parsed []).filter
      (fun key => ekeys.contains key) :=
    List.mem_filter.mpr ⟨hk, (str_contains_iff _ _).mpr hmem⟩
  rw [show (extractAllKeys parsed []).filter (fun key => ekeys.contains key) =
    findDuplicateKeys parsed ekeys from rfl, h] at hmf
  exact absurd hmf (List.not_mem_nil k)

theorem retained_not_existing (parsed : Jobj) (ekeys : List Str) (k : Str)
    (hk : k ∈ extractAllKeys parsed [])
    (hnd : (findDuplicateKeys parsed ekeys).contains k = false) :
    k ∉ ekeys := by
  intro hmem
  have hmf : k ∈ findDuplicateKeys parsed ekeys := by
    rw [findDuplicateKeys]
    exact List.mem_filter.mpr ⟨hk, (str_contains_iff _ _).mpr hmem⟩
  rw [(str_contains_iff _ _).mpr hmf] at hnd
  exact absurd hnd (by decide)

theorem genInv_init (existingKeys : List Str) :
    GenInv existingKeys (initState existingKeys) := by
  refine ⟨?_, ?_, ?_, ?_⟩
  · intro k hk
    exact (mem_addAllKeys existingKeys [] k).mpr (Or.inr hk)
  · intro o ho
    exact absurd ho (List.not_mem_nil o)
  · exact List.nodup_nil
  · intro o ho
    exact absurd ho (List.not_mem_nil o)

theorem genInv_step (ek : List Str) (oracle : Nat → LlmResponse)
    (contextSample : Str) (useNestedKeys : Bool) (batch : List FigmaTextNode)
    (st st' : GenState) (hInv : GenInv ek st) (hbh : batchHyp oracle st = true)
    (h : processBatch oracle contextSample useNestedKeys batch st = .ok st') :
    GenInv ek st' := by
  obtain ⟨parsed, h1, hcases⟩ := processBatch_ok_inv _ _ _ _ _ _ h
  rw [batchHyp, h1] at hbh
  dsimp only at hbh
  rw [Bool.and_eq_true] at hbh
  have hwf : wfObj parsed = true := hbh.1
  obtain ⟨hek, hres, hnd, hnotek⟩ := hInv
  rcases hcases with ⟨hdnil, hres', hkeys'⟩ | ⟨hdne, hrest⟩
  · -- no collisions: the whole first-pass result is appended
    have hfresh : ∀ k ∈ extractAllKeys parsed [], k ∉ st.allExistingKeys :=
      fdk_nil_not_mem parsed st.allExistingKeys hdnil
    refine ⟨?_, ?_, ?_, ?_⟩
    · intro k hk
      rw [hkeys', mem_addAllKeys]
      exact Or.inl (hek k hk)
    · intro o ho k hk
      rw [hres'] at ho
      rw [hkeys', mem_addAllKeys]
      rcases List.mem_append.mp ho with ho | ho
      · exact Or.inl (hres o ho k hk)
      · rw [List.mem_singleton] at ho
        subst ho
        exact Or.inr hk
    · rw [hres', List.map_append, List.flatten_append]
      simp only [List.map_cons, List.map_nil, List.flatten_cons,
        List.flatten_nil, List.append_nil]
      rw [List.nodup_append]
      refine ⟨hnd, extract_nodup (sizeOf parsed) parsed le_rfl hwf, ?_⟩
      intro a ha hb
      obtain ⟨l, hl, hal⟩ := List.mem_flatten.mp ha
      obtain ⟨o, ho, rfl⟩ := List.mem_map.mp hl
      exact hfresh a hb (hres o ho a hal)
    · intro o ho k hk
      rw [hres'] at ho
      rcases List.mem_append.mp ho with ho | ho
      · exact hnotek o ho k hk
      · rw [List.mem_singleton] at ho
        subst ho
        exact fun hkek => hfresh k hk (hek k hkek)
  · rcases hrest with ⟨h4, hres', hkeys'⟩ | ⟨retryParsed, fp, h4, hfp, hres', hkeys'⟩
    · -- missing retry content: the state is unchanged
      refine ⟨?_, ?_, ?_, ?_⟩
      · intro k hk
        rw [hkeys']
        exact hek k hk
      · intro o ho k hk
        rw [hres'] at ho
        rw [hkeys']
        exact hres o ho k hk
      · rw [hres']
        exact hnd
      · intro o ho k hk
        rw [hres'] at ho
        exact hnotek o ho k hk
    · -- retry succeeded: filtered keys plus retry keys are appended
      have hie : (findDuplicateKeys parsed st.allExistingKeys).isEmpty = false := by
        cases hcon : (findDuplicateKeys parsed st.allExistingKeys).isEmpty
        · rfl
        · exact absurd (List.isEmpty_iff.mp hcon) hdne
      have hb2 := hbh.2
      rw [hie, Bool.false_or, h4] at hb2
      dsimp only at hb2
      rw [Bool.and_eq_true] at hb2
      have hwfR : wfObj retryParsed = true := hb2.1
      have hfreshR : ∀ k ∈ topKeys retryParsed ++ leafKeys retryParsed,
          k ∉ st.allExistingKeys ∧
          ((extractAllKeys parsed []).filter
            (fun k2 => !((findDuplicateKeys parsed st.allExistingKeys).contains k2))).contains k = false := by
        intro k hk
        have hall := List.all_eq_true.mp hb2.2 k hk
        rw [Bool.and_eq_true, Bool.not_eq_true', Bool.not_eq_true'] at hall
        exact ⟨contains_false_not_mem _ _ hall.1, hall.2⟩
      obtain ⟨fp', hfp', hfpk, hfpl⟩ :=
        buildFilteredParsed_ok parsed (findDuplicateKeys parsed st.allExistingKeys) hwf
      rw [hfp] at hfp'
      injection hfp' with hfp'
      subst hfp'
      have hextfp : extractAllKeys fp [] = topKeys fp := leafKeys_all_leaf fp hfpl
      -- keys retained from the first pass avoid the registry
      have hretained : ∀ k ∈ extractAllKeys fp [], k ∉ st.allExistingKeys := by
        intro k hk
        rw [hextfp, hfpk] at hk
        have hk' := List.mem_filter.mp hk
        exact retained_not_existing parsed st.allExistingKeys k hk'.1
          (Bool.not_eq_true' _ |>.mp hk'.2)
      -- retry keys avoid the registry
      have hretry : ∀ k ∈ extractAllKeys retryParsed [], k ∉ st.allExistingKeys := by
        intro k hk
        exact (hfreshR k (List.mem_append_right _ hk)).1
      -- retry top-level keys avoid the retained keys
      have hdisj : ∀ k ∈ topKeys retryParsed, ¬k ∈ topKeys fp := by
        intro k hk hcon
        have hc := (hfreshR k (List.mem_append_left _ hk)).2
        rw [hfpk] at hcon
        rw [(str_contains_iff _ _).mpr hcon] at hc
        exact absurd hc (by decide)
      have hndR : (topKeys retryParsed).Nodup := by
        rw [wfObj, Bool.and_eq_true] at hwfR
        exact of_decide_eq_true hwfR.1
      have hmerge : spreadMerge fp retryParsed = fp ++ retryParsed :=
        spreadMerge_disjoint_append retryParsed fp hndR hdisj
      have hnewkeys : extractAllKeys (spreadMerge fp retryParsed) [] =
          extractAllKeys fp [] ++ extractAllKeys retryParsed [] := by
        rw [hmerge, extractAllKeys_append]
      refine ⟨?_, ?_, ?_, ?_⟩
      · intro k hk
        rw [hkeys', mem_addAllKeys, mem_addAllKeys]
        exact Or.inl (Or.inl (hek k hk))
      · intro o ho k hk
        rw [hres'] at ho
        rw [hkeys', mem_addAllKeys, mem_addAllKeys]
        rcases List.mem_append.mp ho with ho | ho
        · exact Or.inl (Or.inl (hres o ho k hk))
        · rw [List.mem_singleton] at ho
          subst ho
          rw [hnewkeys] at hk
          rcases List.mem_append.mp hk with hk | hk
          · exact Or.inr hk
          · exact Or.inl (Or.inr hk)
      · rw [hres', List.map_append, List.flatten_append]
        simp only [List.map_cons, List.map_nil, List.flatten_cons,
          List.flatten_nil, List.append_nil]
        rw [List.nodup_append]
        refine ⟨hnd, ?_, ?_⟩
        · rw [show leafKeys (spreadMerge fp retryParsed) =
            extractAllKeys (spreadMerge fp retryParsed) [] from rfl, hnewkeys,
            List.nodup_append]
          refine ⟨?_, extract_nodup (sizeOf retryParsed) retryParsed le_rfl hwfR, ?_⟩
          · rw [hextfp, hfpk]
            exact (extract_nodup (sizeOf parsed) parsed le_rfl hwf).filter _
          · intro a ha hb
            have hc := (hfreshR a (List.mem_append_right _ hb)).2
            rw [hextfp, hfpk] at ha
            rw [(str_contains_iff _ _).mpr ha] at hc
            exact absurd hc (by decide)
        · intro a ha hb
          obtain ⟨l, hl, hal⟩ := List.mem_flatten.mp ha
          obtain ⟨o, ho, rfl⟩ := List.mem_map.mp hl
          have haereg : a ∈ st.allExistingKeys := hres o ho a hal
          rw [show leafKeys (spreadMerge fp retryParsed) =
            extractAllKeys (spreadMerge fp retryParsed) [] from rfl, hnewkeys] at hb
          rcases List.mem_append.mp hb with hb | hb
          · exact hretained a hb haereg
          · exact hretry a hb haereg
      · intro o ho k hk
        rw [hres'] at ho
        rcases List.mem_append.mp ho with ho | ho
        · exact hnotek o ho k hk
        · rw [List.mem_singleton] at ho
          subst ho
          rw [hnewkeys] at hk
          intro hkek
          rcases List.mem_append.mp hk with hk | hk
          · exact hretained k hk (hek k hkek)
          · exact hretry k hk (hek k hkek)

theorem genInv_run (ek : List Str) (oracle : Nat → LlmResponse)
    (contextSample : Str) (useNestedKeys : Bool) :
    ∀ (bs : List (List FigmaTextNode)) (st st' : GenState),
      GenInv ek st →
      (∀ s ∈ statesAlong oracle contextSample useNestedKeys bs st,
        batchHyp oracle s = true) →
      bs.foldlM
        (fun s b => processBatch oracle contextSample useNestedKeys b s) st =
        .ok st' →
      GenInv ek st' := by
  intro bs
  induction bs with
  | nil =>
    intro st st' hInv _ h
    injection h with h
    subst h
    exact hInv
  | cons b rest ih =>
    intro st st' hInv hbh h
    rw [List.foldlM_cons] at h
    cases hpb : processBatch oracle contextSample useNestedKeys b st with
    | error e =>
      rw [hpb] at h
      have h2 : (Except.error e : Except GenError GenState) = .ok st' := h
      cases h2
    | ok st1 =>
      rw [hpb] at h
      have h' : rest.foldlM
          (fun s b => processBatch oracle contextSample useNestedKeys b s) st1 =
          .ok st' := h
      have hb0 : batchHyp oracle st = true := by
        apply hbh
        rw [statesAlong]
        exact List.mem_cons_self _ _
      have hInv1 :=
        genInv_step ek oracle contextSample useNestedKeys b st st1 hInv hb0 hpb
      refine ih st1 st' hInv1 ?_ h'
      intro s hs
      apply hbh
      rw [statesAlong, hpb]
      exact List.mem_cons_of_mem _ hs

/-- **C1**: whenever `generateKeysInBatches` succeeds, and every provider
response consumed along the run is well formed with regeneration results
avoiding both the key registry and the batch's retained first-pass keys
(`batchHyp`), then no leaf key-path of the returned map is in the
caller-supplied existing-key list, and the generated per-batch leaf key-paths
are globally duplicate-free.  The hypothesis `batchHyp` is necessary: an
unchecked colliding regeneration result is accepted into the final map (see
the counterexample). -/
theorem generateKeys_collision_free (nodes : List FigmaTextNode)
    (contextSample : Str) (existingKeys : List Str) (batchSize : Nat)
    (useNestedKeys : Bool) (oracle : Nat → LlmResponse) (res : GenResult)
    (hbh : ∀ s ∈ statesAlong oracle contextSample useNestedKeys
      (mkBatches nodes batchSize) (initState existingKeys),
      batchHyp oracle s = true)
    (hres : generateKeysInBatches nodes contextSample existingKeys batchSize
      useNestedKeys oracle = .ok res) :
    (∀ k ∈ extractAllKeys res.generatedKeys [], k ∉ existingKeys) ∧
    ∃ st', runState nodes contextSample existingKeys batchSize useNestedKeys
        oracle = .ok st' ∧
      res.generatedKeys = st'.results.foldl spreadMerge [] ∧
      ((st'.results.map leafKeys).flatten).Nodup := by
  rw [generateKeysInBatches] at hres
  cases hrun : runState nodes contextSample existingKeys batchSize
      useNestedKeys oracle with
  | error e =>
    rw [hrun] at hres
    exact absurd hres (by simp)
  | ok st' =>
    rw [hrun] at hres
    dsimp only at hres
    injection hres with hres
    subst hres
    have hrun' : (mkBatches nodes batchSize).foldlM
        (fun s b => processBatch oracle contextSample useNestedKeys b s)
        (initState existingKeys) = .ok st' := hrun
    have hInv : GenInv existingKeys st' :=
      genInv_run existingKeys oracle contextSample useNestedKeys
        (mkBatches nodes batchSize) (initState existingKeys) st'
        (genInv_init existingKeys) hbh hrun'
    refine ⟨?_, st', rfl, rfl, hInv.2.2.1⟩
    intro k hk hkek
    rcases mem_leafKeys_foldl st'.results [] k hk with hnil | ⟨o, ho, hko⟩
    · exact absurd hnil (List.not_mem_nil k)
    · exact hInv.2.2.2 o ho k hko hkek

/-- C1 counterexample: with existing key "k", a first pass returning
\x7b"k":"v"\x7d collides; the regeneration response \x7b"k":"w"\x7d is accepted
without any re-check, so the final map's only leaf key "k" IS in the
existing-key list. -/
theorem generateKeys_collision_cex :
    generateKeysInBatches [⟨"v".toList, "F".toList, [], "1:1".toList⟩] []
      ["k".toList] 10 false
      (fun i => if i = 0
        then ⟨some (.parsed [("k".toList, JVal.leaf "v".toList)]), none⟩
        else ⟨some (.parsed [("k".toList, JVal.leaf "w".toList)]), none⟩) =
      .ok ⟨[("k".toList, JVal.leaf "w".toList)], 0, 0, 0⟩ ∧
    "k".toList ∈ extractAllKeys [("k".toList, JVal.leaf "w".toList)] [] ∧
    "k".toList ∈ ["k".toList] :=
  ⟨rfl, List.mem_singleton.mpr rfl, List.mem_singleton.mpr rfl⟩

theorem generateKeys_collision_free_witness :
    (∀ k ∈ extractAllKeys
        (GenResult.mk [("a".toList, JVal.leaf "x".toList)] 0 0 0).generatedKeys
        [], k ∉ ["e".toList]) ∧
    ∃ st', runState [⟨"x".toList, "F".toList, [], "1:1".toList⟩] []
        ["e".toList] 10 false
        (fun _ => ⟨some (.parsed [("a".toList, JVal.leaf "x".toList)]), none⟩) =
        .ok st' ∧
      (GenResult.mk [("a".toList, JVal.leaf "x".toList)] 0 0 0).generatedKeys =
        st'.results.foldl spreadMerge [] ∧
      ((st'.results.map leafKeys).flatten).Nodup :=
  generateKeys_collision_free _ _ _ _ _ _ _
    (by
      intro s hs
      rw [show statesAlong
          (fun _ => (⟨some (.parsed [("a".toList, JVal.leaf "x".toList)]),
            none⟩ : LlmResponse)) [] false
          (mkBatches [⟨"x".toList, "F".toList, [], "1:1".toList⟩] 10)
          (initState ["e".toList]) = [initState ["e".toList]] from rfl,
        List.mem_singleton] at hs
      subst hs
      rfl)
    rfl

/-- **C10** (amended): when the first-pass result is a WELL-FORMED JSON
object (`wfObj`: pairwise-distinct, non-empty, dot-free keys — a proviso the
original claim omits and which is necessary, see the counterexample), its
keys collide, and the regeneration content is non-empty, the batch's stored
output is the spread-merge of `filteredParsed` — whose top-level property
names are exactly the retained (non-colliding) full dot-joined leaf
key-paths of the first-pass result, each bound to a string leaf — with the
retry result; when the retry result's own top-level keys avoid the retained
names, the merge is their plain union (concatenation). -/
theorem retained_keys_flattened (oracle : Nat → LlmResponse)
    (contextSample : Str) (useNestedKeys : Bool) (batch : List FigmaTextNode)
    (st : GenState) (parsed retryParsed : Jobj)
    (h1 : (oracle st.callCount).content = some (.parsed parsed))
    (hwf : wfObj parsed = true)
    (h2 : findDuplicateKeys parsed st.allExistingKeys ≠ [])
    (h3 : (oracle (st.callCount + 1)).content = some (.parsed retryParsed)) :
    ∃ fp st',
      buildFilteredParsed parsed (findDuplicateKeys parsed st.allExistingKeys) =
        .ok fp ∧
      processBatch oracle contextSample useNestedKeys batch st = .ok st' ∧
      st'.results = st.results ++ [spreadMerge fp retryParsed] ∧
      topKeys fp = (extractAllKeys parsed []).filter
        (fun k => !((findDuplicateKeys parsed st.allExistingKeys).contains k)) ∧
      (∀ f ∈ fp, ∃ s, f.2 = JVal.leaf s) ∧
      ((topKeys retryParsed).Nodup →
        (∀ k ∈ topKeys retryParsed, ¬k ∈ topKeys fp) →
        spreadMerge fp retryParsed = fp ++ retryParsed) := by
  obtain ⟨fp, hfp, hfpk, hfpl⟩ :=
    buildFilteredParsed_ok parsed (findDuplicateKeys parsed st.allExistingKeys)
      hwf
  have hnav : ∀ k ∈ findDuplicateKeys parsed st.allExistingKeys, ∃ r,
      navigate (.obj parsed) (jsSplit '.' k) = .ok r := by
    intro k hk
    have hk' : k ∈ extractAllKeys parsed [] := by
      rw [findDuplicateKeys] at hk
      exact (List.mem_filter.mp hk).1
    obtain ⟨v, hv⟩ := nav_leaf (sizeOf parsed) parsed le_rfl hwf k hk'
    exact ⟨_, hv⟩
  obtain ⟨ns, hns⟩ := createNodes_ok batch parsed _ hnav
  refine ⟨fp, ?_⟩
  rw [processBatch]
  dsimp only [recordCall]
  rw [h1]
  dsimp only
  simp only [addUsage_keys, addUsage_results, addUsage_callCount, addUsage_calls]
  rw [if_neg (by simpa [List.isEmpty_iff] using h2), hns]
  dsimp only
  rw [h3]
  dsimp only
  rw [hfp]
  refine ⟨_, rfl, rfl, ?_, hfpk, hfpl,
    fun hnd hdisj => spreadMerge_disjoint_append retryParsed fp hnd hdisj⟩
  simp [recordCall, addUsage_results]

theorem retained_keys_flattened_witness :
    ∃ fp st',
      buildFilteredParsed
        [("A".toList, JVal.obj [("b".toList, JVal.leaf "x".toList),
          ("dup".toList, JVal.leaf "y".toList)])]
        (findDuplicateKeys
          [("A".toList, JVal.obj [("b".toList, JVal.leaf "x".toList),
            ("dup".toList, JVal.leaf "y".toList)])]
          (initState ["A.dup".toList]).allExistingKeys) = .ok fp ∧
      processBatch
        (fun i => if i = 0
          then ⟨some (.parsed
            [("A".toList, JVal.obj [("b".toList, JVal.leaf "x".toList),
              ("dup".toList, JVal.leaf "y".toList)])]), none⟩
          else ⟨some (.parsed [("fresh".toList, JVal.leaf "z".toList)]), none⟩)
        [] false [] (initState ["A.dup".toList]) = .ok st' ∧
      st'.results = (initState ["A.dup".toList]).results ++
        [spreadMerge fp [("fresh".toList, JVal.leaf "z".toList)]] ∧
      topKeys fp =
        (extractAllKeys
          [("A".toList, JVal.obj [("b".toList, JVal.leaf "x".toList),
            ("dup".toList, JVal.leaf "y".toList)])] []).filter
        (fun k => !((findDuplicateKeys
          [("A".toList, JVal.obj [("b".toList, JVal.leaf "x".toList),
            ("dup".toList, JVal.leaf "y".toList)])]
          (initState ["A.dup".toList]).allExistingKeys).contains k)) ∧
      (∀ f ∈ fp, ∃ s, f.2 = JVal.leaf s) ∧
      ((topKeys [("fresh".toList, JVal.leaf "z".toList)]).Nodup →
        (∀ k ∈ topKeys [("fresh".toList, JVal.leaf "z".toList)],
          ¬k ∈ topKeys fp) →
        spreadMerge fp [("fresh".toList, JVal.leaf "z".toList)] =
          fp ++ [("fresh".toList, JVal.leaf "z".toList)]) :=
  retained_keys_flattened _ _ _ _ _ _ _ rfl rfl (by decide) rfl

/-- C10 counterexample: the well-formedness proviso is necessary.  With a
first pass of \x7b"k":"v","a.b":"x"\x7d, existing key "k" (so the batch
collides) and a non-empty regeneration response, the retained-key loop
navigates parsed["a"]["b"]; `parsed["a"]` is `undefined`, the property read
throws, and the catch aborts the whole invocation with "Invalid JSON
response from OpenAI" — nothing is stored, refuting the unconditional
claim. -/
theorem retained_keys_flattened_cex :
    findDuplicateKeys
      [("k".toList, JVal.leaf "v".toList), ("a.b".toList, JVal.leaf "x".toList)]
      (initState ["k".toList]).allExistingKeys ≠ [] ∧
    ((fun i => if i = 0
        then (⟨some (.parsed [("k".toList, JVal.leaf "v".toList),
          ("a.b".toList, JVal.leaf "x".toList)]), none⟩ : LlmResponse)
        else ⟨some (.parsed [("fresh".toList, JVal.leaf "z".toList)]), none⟩)
      ((initState ["k".toList]).callCount + 1)).content =
      some (.parsed [("fresh".toList, JVal.leaf "z".toList)]) ∧
    generateKeysInBatches [⟨"v".toList, "F".toList, [], "1:1".toList⟩] []
      ["k".toList] 10 false
      (fun i => if i = 0
        then ⟨some (.parsed [("k".toList, JVal.leaf "v".toList),
          ("a.b".toList, JVal.leaf "x".toList)]), none⟩
        else ⟨some (.parsed [("fresh".toList, JVal.leaf "z".toList)]), none⟩) =
      .error GenError.invalidJson :=
  ⟨by decide, rfl, rfl⟩
